import Mathlib

/-!
Verification of the retrieval-and-answer pipeline of the
LLM-Powered-Query-Retrieval-System-V2 repository.

Python strings are modelled as `List Char`; Python floats as `ℚ` (built with
`mkRat`, which equals ordinary division by `Rat.mkRat_eq_div`); Python dicts
with string keys as insertion-ordered association lists; fallible code as
`Except`.  Each definition is a direct transcription of the corresponding
Python function, named after it.
-/

/-- Coerce a Lean string literal to the `List Char` representation. -/
def str (s : String) : List Char := s.data

/-- Python `str.lower()` (ASCII fragment, as used by the repository). -/
def pyLower (l : List Char) : List Char := l.map Char.toLower

/-- Python `str.split()` with no arguments: split on whitespace runs,
dropping empty pieces. -/
def pySplitWS (l : List Char) : List (List Char) :=
  (l.splitOnP Char.isWhitespace).filter (· ≠ [])

/-- Python `str.strip()` (no arguments): drop leading and trailing
whitespace. -/
def pyStrip (l : List Char) : List Char :=
  (l.dropWhile Char.isWhitespace).reverse.dropWhile Char.isWhitespace |>.reverse

/-- Python `str.strip(chars)`: drop leading and trailing characters that
belong to `chars`. -/
def pyStripChars (chars : List Char) (l : List Char) : List Char :=
  (l.dropWhile (· ∈ chars)).reverse.dropWhile (· ∈ chars) |>.reverse

/-! ## A tiny substitution engine for the regular expressions the code uses

Every pattern in the repository is applied through `re.sub`.  A `Matcher`
returns, for a suffix of the text, the number of characters the pattern
consumes there (`none` when it does not match).  `subAll` is `re.sub`:
scan left to right, replace each non-overlapping match by `repl`, resume
after the match.  All the repository's patterns consume at least one
character, so a `some 0` answer is treated as no match. -/

def Matcher : Type := List Char → Option Nat

/-- Fuel-indexed worker for `subAll` (fuel bounds the number of characters
still to be scanned, so plain structural recursion suffices). -/
def subAllF (m : Matcher) (repl : List Char) : Nat → List Char → List Char
  | 0, s => s
  | _, [] => []
  | fuel + 1, c :: cs =>
    match m (c :: cs) with
    | some (n + 1) => repl ++ subAllF m repl fuel (List.drop n cs)
    | _ => c :: subAllF m repl fuel cs

/-- `re.sub(pattern, repl, s)` for the matcher `m`. -/
def subAll (m : Matcher) (repl : List Char) (s : List Char) : List Char :=
  subAllF m repl s.length s

/-- Does the matcher fire anywhere in `s` (consuming at least a character)? -/
def hasMatch (m : Matcher) : List Char → Bool
  | [] => false
  | c :: cs =>
    match m (c :: cs) with
    | some (_ + 1) => true
    | _ => hasMatch m cs

theorem subAllF_of_not_hasMatch (m : Matcher) (repl : List Char) :
    ∀ fuel s, hasMatch m s = false → subAllF m repl fuel s = s := by
  intro fuel
  induction fuel with
  | zero => intro s _; cases s <;> rfl
  | succ n ih =>
    intro s hs
    cases s with
    | nil => rfl
    | cons c cs =>
      simp only [hasMatch] at hs
      simp only [subAllF]
      cases hm : m (c :: cs) with
      | none => rw [hm] at hs; simp [ih cs hs]
      | some k =>
        cases k with
        | zero => rw [hm] at hs; simp [ih cs hs]
        | succ j => rw [hm] at hs; simp at hs

/-- If a matcher finds nothing in `s`, then `re.sub` leaves `s` unchanged. -/
theorem subAll_of_not_hasMatch (m : Matcher) (repl : List Char)
    (s : List Char) (h : hasMatch m s = false) : subAll m repl s = s :=
  subAllF_of_not_hasMatch m repl s.length s h

/-! ## models/schemas.py -/

/-- A Python metadata value (the repository stores ints and strings). -/
inductive PyVal where
  | vInt : Int → PyVal
  | vStr : List Char → PyVal
deriving DecidableEq

/-- A Python dict with string keys, as an insertion-ordered association
list with unique keys. -/
def Metadata : Type := List (List Char × PyVal)

instance : DecidableEq Metadata := by unfold Metadata; infer_instance

/-- Python `d.get(k)`. -/
def metaGet (m : Metadata) (k : List Char) : Option PyVal :=
  match m with
  | [] => none
  | (k', v) :: rest => if k' = k then some v else metaGet rest k

/-- Python `d[k] = v` on a fresh copy of `d` (replaces in place, appends if
absent — insertion order preserved, as for a Python dict). -/
def metaSet (m : Metadata) (k : List Char) (v : PyVal) : Metadata :=
  match m with
  | [] => [(k, v)]
  | (k', v') :: rest =>
    if k' = k then (k', v) :: rest else (k', v') :: metaSet rest k v

/-- `models.schemas.DocumentChunk`. -/
structure DocumentChunk where
  content : List Char
  metadata : Metadata
  chunk_id : List Char
  page_number : Option Int
deriving DecidableEq

/-- `models.schemas.ClauseMatch`. -/
structure ClauseMatch where
  content : List Char
  similarity_score : ℚ
  metadata : Metadata
  source_reference : List Char
deriving DecidableEq

/-! ## services/optimizer.py — QueryOptimizer -/

namespace QueryOptimizer

/-- `QueryOptimizer._calculate_text_similarity`: Jaccard similarity of the
lowercase whitespace-tokenized word sets (`mkRat i u` is `i / u`). -/
def _calculate_text_similarity (text1 text2 : List Char) : ℚ :=
  let words1 := pySplitWS (pyLower text1)
  let words2 := pySplitWS (pyLower text2)
  let intersection := words1.dedup.filter (· ∈ words2)
  let union := (words1 ++ words2).dedup
  if union = [] then 0 else mkRat intersection.length union.length

/-- The diversity threshold `0.8` from the source. -/
def diversityThreshold : ℚ := mkRat 4 5

/-- Stable insertion of a later element into an already sorted (descending)
list: it lands after every element with a score `≥` its own, exactly as a
stable descending sort places it. -/
def insertDesc (c : ClauseMatch) : List ClauseMatch → List ClauseMatch
  | [] => [c]
  | x :: xs =>
    if c.similarity_score ≤ x.similarity_score then x :: insertDesc c xs
    else c :: x :: xs

def pySortDescAux (acc : List ClauseMatch) : List ClauseMatch → List ClauseMatch
  | [] => acc
  | c :: cs => pySortDescAux (insertDesc c acc) cs

/-- Python `sorted(chunks, key=lambda x: x.similarity_score, reverse=True)`:
the stable descending sort by similarity score. -/
def pySortDesc (l : List ClauseMatch) : List ClauseMatch :=
  pySortDescAux [] l

/-- The `for chunk in sorted_chunks[1:]` loop of
`QueryOptimizer.optimize_chunk_selection`: append a candidate when it is
diverse from everything selected, break as soon as five are selected. -/
def selectLoop (selected : List ClauseMatch) :
    List ClauseMatch → List ClauseMatch
  | [] => selected
  | c :: cs =>
    let is_diverse := selected.all
      (fun s => !(_calculate_text_similarity c.content s.content >
                  diversityThreshold))
    let selected' := if is_diverse then selected ++ [c] else selected
    if 5 ≤ selected'.length then selected' else selectLoop selected' cs

/-- `QueryOptimizer.optimize_chunk_selection`. -/
def optimize_chunk_selection (chunks : List ClauseMatch) (_query : List Char) :
    List ClauseMatch :=
  if chunks.length ≤ 3 then chunks
  else
    match pySortDesc chunks with
    | [] => []
    | top :: rest => selectLoop [top] rest

/-- `QueryOptimizer` cache entry: `{'result': …, 'timestamp': …}`. -/
structure CacheEntry where
  result : List Char
  timestamp : ℚ
deriving DecidableEq

/-- The `query_cache` dict, keyed by the cache-key string. -/
def Cache : Type := List (List Char × CacheEntry)

/-- Python dict lookup on the cache. -/
def cacheGet (c : Cache) (k : List Char) : Option CacheEntry :=
  match c with
  | [] => none
  | (k', v) :: rest => if k' = k then some v else cacheGet rest k

/-- Python dict assignment on the cache. -/
def cacheSet (c : Cache) (k : List Char) (v : CacheEntry) : Cache :=
  match c with
  | [] => [(k, v)]
  | (k', v') :: rest =>
    if k' = k then (k', v) :: rest else (k', v') :: cacheSet rest k v

/-- Decimal digits of a natural number (little fuel recursion). -/
def natDigits : Nat → Nat → List Char
  | 0, _ => []
  | fuel + 1, n =>
    if n < 10 then [Char.ofNat (48 + n)]
    else natDigits fuel (n / 10) ++ [Char.ofNat (48 + n % 10)]

/-- Python `f"{h}"` for an integer `h` (decimal rendering). -/
def intRepr (i : Int) : List Char :=
  if i < 0 then '-' :: natDigits i.natAbs i.natAbs
  else natDigits (i.toNat + 1) i.toNat

/-- The cache key `f"{document_url}:{hash(query)}"`; `h` models Python's
`hash` on strings. -/
def cache_key (h : List Char → Int) (query document_url : List Char) :
    List Char :=
  document_url ++ ':' :: intRepr (h query)

/-- `QueryOptimizer.should_use_cache`, with the ambient clock `now`
(`time.time()`) passed explicitly. -/
def should_use_cache (h : List Char → Int) (cache : Cache) (now : ℚ)
    (query document_url : List Char) : Bool :=
  match cacheGet cache (cache_key h query document_url) with
  | some entry => decide (now - entry.timestamp < 3600)
  | none => false

/-- `QueryOptimizer.cache_result`, with the ambient clock passed
explicitly; returns the updated cache. -/
def cache_result (h : List Char → Int) (cache : Cache) (now : ℚ)
    (query document_url result : List Char) : Cache :=
  cacheSet cache (cache_key h query document_url) ⟨result, now⟩

end QueryOptimizer

namespace QueryOptimizer

/-- The selection pass exactly as the specification words it: iterate the
remaining matches in score order, admit a candidate only if its word-overlap
with every already-selected match is at most the threshold, stop once five
matches are selected or candidates are exhausted. -/
def specSelectLoop (selected : List ClauseMatch) :
    List ClauseMatch → List ClauseMatch
  | [] => selected
  | c :: cs =>
    if 5 ≤ selected.length then selected
    else if decide (∀ s ∈ selected,
        _calculate_text_similarity c.content s.content ≤ diversityThreshold)
      then specSelectLoop (selected ++ [c]) cs
      else specSelectLoop selected cs

/-- `optimize_chunk_selection` as the specification words it. -/
def specOptimize (chunks : List ClauseMatch) (_query : List Char) :
    List ClauseMatch :=
  if chunks.length ≤ 3 then chunks
  else
    match pySortDesc chunks with
    | [] => []
    | top :: rest => specSelectLoop [top] rest

theorem specSelectLoop_of_full (selected : List ClauseMatch)
    (cands : List ClauseMatch) (h : 5 ≤ selected.length) :
    specSelectLoop selected cands = selected := by
  cases cands <;> simp [specSelectLoop, h]

theorem selectLoop_eq_spec :
    ∀ (cands selected : List ClauseMatch), selected.length < 5 →
      selectLoop selected cands = specSelectLoop selected cands := by
  intro cands
  induction cands with
  | nil => intro sel _; rfl
  | cons c cs ih =>
    intro sel hlen
    have hne : ¬ (5 ≤ sel.length) := by omega
    have hb : (sel.all fun s =>
        !(_calculate_text_similarity c.content s.content >
          diversityThreshold)) =
        decide (∀ s ∈ sel,
          _calculate_text_similarity c.content s.content ≤
            diversityThreshold) := by
      rw [Bool.eq_iff_iff]
      simp [List.all_eq_true, not_lt]
    simp only [selectLoop, specSelectLoop, hb, if_neg hne]
    by_cases hP : ∀ s ∈ sel,
        _calculate_text_similarity c.content s.content ≤ diversityThreshold
    · rw [decide_eq_true hP]
      simp only [if_true]
      by_cases hfull : 5 ≤ (sel ++ [c]).length
      · rw [if_pos hfull, specSelectLoop_of_full _ _ hfull]
      · rw [if_neg hfull]
        exact ih (sel ++ [c]) (by omega)
    · rw [decide_eq_false hP]
      simp only [Bool.false_eq_true, if_false, if_neg hne]
      exact ih sel hlen

/-- Sample matches for the diversity-selection scenario: matches 2–4 share
nine of ten words with match 1 (Jaccard 9/10 > 0.8), match 5 is disjoint. -/
def sampleMatch (c : String) (sc : ℚ) : ClauseMatch :=
  ⟨str c, sc, [], str "ref"⟩

def sm1 : ClauseMatch := sampleMatch "a b c d e f g h i j" 10
def sm2 : ClauseMatch := sampleMatch "a b c d e f g h i" 9
def sm3 : ClauseMatch := sampleMatch "a b c d e f g h j" 8
def sm4 : ClauseMatch := sampleMatch "a b c d e f g i j" 7
def sm5 : ClauseMatch := sampleMatch "x y z" 6

end QueryOptimizer

/-- Claim C2: `optimize_chunk_selection` returns inputs of length ≤ 3
unchanged; otherwise it behaves exactly as the specification's greedy
diversity selection (stable descending sort by score, keep the top match,
admit a candidate iff its Jaccard word-overlap with every selected match is
≤ 0.8, stop at five); and on the five-match near-duplicate scenario it
returns exactly matches 1 and 5. -/
theorem C2_optimize_chunk_selection :
    (∀ chunks query,
      QueryOptimizer.optimize_chunk_selection chunks query =
        QueryOptimizer.specOptimize chunks query)
    ∧ (∀ chunks query, chunks.length ≤ 3 →
        QueryOptimizer.optimize_chunk_selection chunks query = chunks)
    ∧ QueryOptimizer.optimize_chunk_selection
        [QueryOptimizer.sm1, QueryOptimizer.sm2, QueryOptimizer.sm3,
         QueryOptimizer.sm4, QueryOptimizer.sm5] (str "q") =
        [QueryOptimizer.sm1, QueryOptimizer.sm5] := by
  refine ⟨?_, ?_, by decide⟩
  · intro chunks query
    unfold QueryOptimizer.optimize_chunk_selection QueryOptimizer.specOptimize
    by_cases h3 : chunks.length ≤ 3
    · simp [h3]
    · rw [if_neg h3, if_neg h3]
      cases hs : QueryOptimizer.pySortDesc chunks with
      | nil => rfl
      | cons top rest =>
        exact QueryOptimizer.selectLoop_eq_spec rest [top] (by simp)
  · intro chunks query h3
    unfold QueryOptimizer.optimize_chunk_selection
    simp [h3]

/-- Witness for C2 at a concrete input: a two-element list is returned
unchanged. -/
theorem C2_optimize_chunk_selection_witness :
    QueryOptimizer.optimize_chunk_selection
      [QueryOptimizer.sm1, QueryOptimizer.sm2] (str "q") =
      [QueryOptimizer.sm1, QueryOptimizer.sm2] :=
  C2_optimize_chunk_selection.2.1
    [QueryOptimizer.sm1, QueryOptimizer.sm2] (str "q") (by decide)

namespace QueryOptimizer

theorem cacheGet_cacheSet (c : Cache) (k : List Char) (v : CacheEntry) :
    cacheGet (cacheSet c k v) k = some v := by
  induction c with
  | nil => simp [cacheSet, cacheGet]
  | cons kv rest ih =>
    obtain ⟨k', v'⟩ := kv
    by_cases hk : k' = k
    · simp [cacheSet, cacheGet, hk]
    · simp [cacheSet, cacheGet, hk, ih]

end QueryOptimizer

/-- Claim C3: `should_use_cache` returns true iff an entry exists under the
key built from `(document_url, hash(question))` and the current time minus
its stored timestamp is strictly below 3600 seconds; in particular it is
true immediately after `cache_result` stores the entry, and false once more
than 3600 seconds have elapsed since the write. -/
theorem C3_should_use_cache (h : List Char → Int)
    (cache : QueryOptimizer.Cache) (now : ℚ) (query document_url : List Char) :
    (QueryOptimizer.should_use_cache h cache now query document_url = true ↔
      ∃ e, QueryOptimizer.cacheGet cache
          (QueryOptimizer.cache_key h query document_url) = some e ∧
        now - e.timestamp < 3600)
    ∧ (∀ t result, QueryOptimizer.should_use_cache h
        (QueryOptimizer.cache_result h cache t query document_url result)
        t query document_url = true)
    ∧ (∀ t t' result, t' - t > 3600 →
        QueryOptimizer.should_use_cache h
          (QueryOptimizer.cache_result h cache t query document_url result)
          t' query document_url = false) := by
  refine ⟨?_, ?_, ?_⟩
  · unfold QueryOptimizer.should_use_cache
    cases hg : QueryOptimizer.cacheGet cache
        (QueryOptimizer.cache_key h query document_url) with
    | none => simp
    | some e => simp [hg]
  · intro t result
    unfold QueryOptimizer.should_use_cache QueryOptimizer.cache_result
    rw [QueryOptimizer.cacheGet_cacheSet]
    simp only [decide_eq_true_eq]
    norm_num
  · intro t t' result hgt
    unfold QueryOptimizer.should_use_cache QueryOptimizer.cache_result
    rw [QueryOptimizer.cacheGet_cacheSet]
    simp only [decide_eq_false_iff_not, not_lt]
    linarith

/-- Witness for C3 at concrete inputs: with a constant hash, an empty
cache, a write at time 0, the cache is used at time 0 and refused at time
4000. -/
theorem C3_should_use_cache_witness :
    QueryOptimizer.should_use_cache (fun _ => 0)
      (QueryOptimizer.cache_result (fun _ => 0) [] 0 (str "q") (str "u")
        (str "r")) 0 (str "q") (str "u") = true
    ∧ QueryOptimizer.should_use_cache (fun _ => 0)
      (QueryOptimizer.cache_result (fun _ => 0) [] 0 (str "q") (str "u")
        (str "r")) 4000 (str "q") (str "u") = false :=
  ⟨(C3_should_use_cache (fun _ => 0) [] 0 (str "q") (str "u")).2.1 0 (str "r"),
   (C3_should_use_cache (fun _ => 0) [] 0 (str "q") (str "u")).2.2 0 4000
     (str "r") (by norm_num)⟩

/-! ## services/embedding_service.py — EmbeddingService -/

namespace EmbeddingService

/-- The mutable state of `EmbeddingService`: `self.index` (the FAISS blob,
opaque, `none` before any build) and `self.chunks`. -/
structure IndexState where
  index : Option Nat
  chunks : List DocumentChunk
deriving DecidableEq

/-- `EmbeddingService.load_index`.  The filesystem is passed explicitly:
`faiss_exists`/`chunks_exists` are the two `os.path.exists` checks,
`read_faiss` is `faiss.read_index` (its failure raises), `read_chunks` is
`pickle.load` (its failure raises).  The two assignments to `self.index`
and `self.chunks` happen in that order, and any exception is caught and
turned into a `False` return, keeping whatever had been assigned so far. -/
def load_index (s : IndexState) (faiss_exists chunks_exists : Bool)
    (read_faiss : Except (List Char) Nat)
    (read_chunks : Except (List Char) (List DocumentChunk)) :
    IndexState × Bool :=
  if faiss_exists && chunks_exists then
    match read_faiss with
    | .error _ => (s, false)
    | .ok ix =>
      match read_chunks with
      | .error _ => ({ s with index := some ix }, false)
      | .ok cs => ({ index := some ix, chunks := cs }, true)
  else (s, false)

/-- A sample pre-existing index state. -/
def sampleState : IndexState :=
  ⟨some 1, [⟨str "old chunk", [], str "id0", none⟩]⟩

end EmbeddingService

/-- Counterexample to claim C4: when both files exist, the FAISS read
succeeds and the pickle read fails, `load_index` returns `false` but the
in-memory index has already been overwritten (only the chunk list keeps its
old value) — a partial overwrite. -/
theorem C4_load_index_counterexample :
    (EmbeddingService.load_index EmbeddingService.sampleState true true
      (.ok 2) (.error (str "bad pickle"))).2 = false
    ∧ (EmbeddingService.load_index EmbeddingService.sampleState true true
      (.ok 2) (.error (str "bad pickle"))).1 ≠ EmbeddingService.sampleState := by
  refine ⟨rfl, ?_⟩
  decide

/-- Claim C4 as amended: `load_index` returns a success boolean; on the
missing-file path and on a FAISS-read failure the state is fully
unchanged, and the chunk list is never changed by a failing call, but a
pickle failure after a successful FAISS read leaves the index overwritten:
exactly the successful calls install the freshly read pair. -/
theorem C4_load_index_amended (s : EmbeddingService.IndexState)
    (fe ce : Bool) (rf : Except (List Char) Nat)
    (rc : Except (List Char) (List DocumentChunk)) :
    (¬(fe = true ∧ ce = true) →
      EmbeddingService.load_index s fe ce rf rc = (s, false))
    ∧ (∀ e, rf = .error e →
        EmbeddingService.load_index s fe ce rf rc = (s, false))
    ∧ ((EmbeddingService.load_index s fe ce rf rc).2 = false →
        (EmbeddingService.load_index s fe ce rf rc).1.chunks = s.chunks)
    ∧ ((EmbeddingService.load_index s fe ce rf rc).2 = true →
        ∃ ix cs, rf = .ok ix ∧ rc = .ok cs ∧
          (EmbeddingService.load_index s fe ce rf rc).1 = ⟨some ix, cs⟩) := by
  unfold EmbeddingService.load_index
  refine ⟨?_, ?_, ?_, ?_⟩
  · intro hne
    cases fe <;> cases ce <;> simp_all
  · intro e he
    subst he
    cases fe <;> cases ce <;> simp
  · cases fe <;> cases ce <;> simp <;> cases rf <;> simp <;> cases rc <;> simp
  · cases fe <;> cases ce <;> simp <;> cases rf <;> simp <;> cases rc <;> simp

/-- Witness for C4's amended theorem at concrete inputs: a missing chunks
file leaves the sample state untouched. -/
theorem C4_load_index_amended_witness :
    EmbeddingService.load_index EmbeddingService.sampleState true false
      (.ok 2) (.error (str "missing")) = (EmbeddingService.sampleState, false) :=
  (C4_load_index_amended EmbeddingService.sampleState true false
    (.ok 2) (.error (str "missing"))).1 (by simp)

namespace EmbeddingService

/-- Python list indexing with an `int` index as numpy hands it back:
a negative index counts from the end; out of range is `none`
(an `IndexError` in Python). -/
def pyGetInt {α : Type} (l : List α) (i : Int) : Option α :=
  if 0 ≤ i then l.get? i.toNat
  else if i.natAbs ≤ l.length then l.get? (l.length - i.natAbs) else none

/-- The `ClauseMatch` built for one hit in
`EmbeddingService.search_similar_chunks`. -/
def toClauseMatch (chunk : DocumentChunk) (score : ℚ) : ClauseMatch :=
  ⟨chunk.content, score, chunk.metadata, str "Chunk " ++ chunk.chunk_id⟩

/-- The `for score, idx in zip(scores[0], indices[0])` conversion loop of
`search_similar_chunks`: the guard is `idx < len(self.chunks)`, and the
body indexes `self.chunks[idx]` (raising `IndexError` when truly out of
range). -/
def matchesLoop (chunks : List DocumentChunk) :
    List (ℚ × Int) → Except (List Char) (List ClauseMatch)
  | [] => .ok []
  | (score, idx) :: rest =>
    if idx < (chunks.length : Int) then
      match pyGetInt chunks idx with
      | none => .error (str "IndexError")
      | some chunk =>
        match matchesLoop chunks rest with
        | .error e => .error e
        | .ok ms => .ok (toClauseMatch chunk score :: ms)
    else matchesLoop chunks rest

theorem get?_last {α : Type} :
    ∀ (l : List α) (h : l ≠ []), l.get? (l.length - 1) = some (l.getLast h) := by
  intro l
  induction l with
  | nil => intro h; exact absurd rfl h
  | cons a t ih =>
    intro _
    cases t with
    | nil => rfl
    | cons b t' =>
      have hne : b :: t' ≠ [] := by simp
      rw [List.getLast_cons hne]
      have hlen : (a :: b :: t').length - 1 = ((b :: t').length - 1) + 1 := by
        simp
      rw [hlen, List.get?_cons_succ]
      exact ih hne

theorem pyGetInt_neg_one {α : Type} (l : List α) (h : l ≠ []) :
    pyGetInt l (-1) = some (l.getLast h) := by
  unfold pyGetInt
  have hlen : 1 ≤ l.length := List.length_pos.mpr h
  have h1 : ¬ ((0 : Int) ≤ -1) := by norm_num
  rw [if_neg h1]
  simp only [Int.natAbs_neg, Int.natAbs_one, if_pos hlen]
  exact get?_last l h

end EmbeddingService

/-- A one-chunk index for the C10 scenario. -/
def c10Chunks : List DocumentChunk :=
  [⟨str "only chunk", [], str "id9", none⟩]

/-- Claim C10: when FAISS pads its result with the sentinel index `-1`
(which it does whenever `top_k` exceeds the number of indexed vectors),
the guard `idx < len(self.chunks)` accepts `-1`, Python's negative
indexing selects the last indexed chunk, and the conversion loop emits a
spurious match built from that last chunk for every padding entry instead
of filtering it out. -/
theorem C10_search_negative_index (chunks : List DocumentChunk)
    (h : chunks ≠ []) :
    (∀ (score : ℚ) (rest : List (ℚ × Int)),
      EmbeddingService.matchesLoop chunks ((score, -1) :: rest) =
        (EmbeddingService.matchesLoop chunks rest).map
          (fun ms => EmbeddingService.toClauseMatch (chunks.getLast h) score :: ms))
    ∧ (∀ (k : Nat) (score : ℚ),
        EmbeddingService.matchesLoop chunks (List.replicate k (score, -1)) =
          .ok (List.replicate k
            (EmbeddingService.toClauseMatch (chunks.getLast h) score))) := by
  have hguard : (-1 : Int) < chunks.length := by
    have : (0 : Int) ≤ chunks.length := by positivity
    omega
  have hstep : ∀ (score : ℚ) (rest : List (ℚ × Int)),
      EmbeddingService.matchesLoop chunks ((score, -1) :: rest) =
        (EmbeddingService.matchesLoop chunks rest).map
          (fun ms => EmbeddingService.toClauseMatch (chunks.getLast h) score :: ms) := by
    intro score rest
    conv_lhs => rw [EmbeddingService.matchesLoop]
    rw [if_pos hguard, EmbeddingService.pyGetInt_neg_one chunks h]
    cases hm : EmbeddingService.matchesLoop chunks rest <;>
      simp [hm, Except.map]
  refine ⟨hstep, ?_⟩
  intro k score
  induction k with
  | zero => rfl
  | succ n ih => rw [List.replicate_succ, hstep, ih]; rfl

/-- Witness for C10 at a concrete input: with one indexed chunk and two
`-1` padding entries (a `top_k = 3` search over one chunk), the loop
returns two spurious copies of the only chunk. -/
theorem C10_search_negative_index_witness :
    EmbeddingService.matchesLoop c10Chunks
      (List.replicate 2 ((mkRat 1 2 : ℚ), -1)) =
      .ok (List.replicate 2
        (EmbeddingService.toClauseMatch
          (c10Chunks.getLast (by decide)) (mkRat 1 2))) :=
  (C10_search_negative_index c10Chunks (by decide)).2 2 (mkRat 1 2)

/-! ## services/query_processor.py — QueryProcessor -/

namespace QueryProcessor

/-- `QueryProcessor._process_document`, over the external seams
`procDoc` (`document_processor.process_document`: download + chunk) and
`embed` (`embedding_service.create_embeddings`): raises the `procDoc`
failure, raises `ValueError("No content extracted from document")` on an
empty chunk list, otherwise builds the index. -/
def _process_document
    (procDoc : List Char → Except (List Char) (List DocumentChunk))
    (embed : List DocumentChunk → Except (List Char) Unit)
    (document_url : List Char) : Except (List Char) Unit :=
  match procDoc document_url with
  | .error e => .error e
  | .ok chunks =>
    if chunks = [] then .error (str "No content extracted from document")
    else embed chunks

/-- The per-question `try/except` body of `QueryProcessor.process_queries`:
a failure of `_process_single_query` (modelled by `single`) becomes the
inline answer `f"Error processing question: {str(e)}"`. -/
def answerOne (single : List Char → Except (List Char) (List Char))
    (question : List Char) : List Char :=
  match single question with
  | .ok a => a
  | .error e => str "Error processing question: " ++ e

/-- `QueryProcessor.process_queries`: re-index when the url differs from
`self._current_document_url` (document-level failures propagate), then
answer every question in order, isolating per-question failures.  Returns
the new `_current_document_url` together with the answers. -/
def process_queries
    (procDoc : List Char → Except (List Char) (List DocumentChunk))
    (embed : List DocumentChunk → Except (List Char) Unit)
    (single : List Char → Except (List Char) (List Char))
    (current : Option (List Char)) (document_url : List Char)
    (questions : List (List Char)) :
    Except (List Char) (Option (List Char) × List (List Char)) :=
  if current ≠ some document_url then
    match _process_document procDoc embed document_url with
    | .error e => .error e
    | .ok _ => .ok (some document_url, questions.map (answerOne single))
  else .ok (current, questions.map (answerOne single))

end QueryProcessor

/-- Claim C1: whenever `process_queries` returns, the answers are exactly
the per-question results in input order (same length); a failing question
contributes the inline string `"Error processing question: …"` at its own
position only; and when the document has to be processed, a download/parse
failure or an empty chunk extraction makes the whole call raise. -/
theorem C1_process_queries
    (procDoc : List Char → Except (List Char) (List DocumentChunk))
    (embed : List DocumentChunk → Except (List Char) Unit)
    (single : List Char → Except (List Char) (List Char))
    (current : Option (List Char)) (url : List Char)
    (qs : List (List Char)) :
    (∀ st answers,
        QueryProcessor.process_queries procDoc embed single current url qs =
          .ok (st, answers) →
        answers = qs.map (QueryProcessor.answerOne single) ∧
        answers.length = qs.length)
    ∧ (∀ q e, single q = .error e →
        QueryProcessor.answerOne single q =
          str "Error processing question: " ++ e)
    ∧ (∀ q a, single q = .ok a → QueryProcessor.answerOne single q = a)
    ∧ (current ≠ some url → ∀ e,
        QueryProcessor._process_document procDoc embed url = .error e →
        QueryProcessor.process_queries procDoc embed single current url qs =
          .error e)
    ∧ (∀ e, procDoc url = .error e →
        QueryProcessor._process_document procDoc embed url = .error e)
    ∧ (procDoc url = .ok [] →
        QueryProcessor._process_document procDoc embed url =
          .error (str "No content extracted from document")) := by
  refine ⟨?_, ?_, ?_, ?_, ?_, ?_⟩
  · intro st answers hok
    unfold QueryProcessor.process_queries at hok
    by_cases hc : current ≠ some url
    · rw [if_pos hc] at hok
      cases hd : QueryProcessor._process_document procDoc embed url with
      | error e => rw [hd] at hok; exact absurd hok (by simp)
      | ok u =>
        rw [hd] at hok
        simp only [Except.ok.injEq, Prod.mk.injEq] at hok
        obtain ⟨_, ha⟩ := hok
        subst ha
        exact ⟨rfl, by simp⟩
    · rw [if_neg hc] at hok
      simp only [Except.ok.injEq, Prod.mk.injEq] at hok
      obtain ⟨_, ha⟩ := hok
      subst ha
      exact ⟨rfl, by simp⟩
  · intro q e he
    unfold QueryProcessor.answerOne
    rw [he]
  · intro q a ha
    unfold QueryProcessor.answerOne
    rw [ha]
  · intro hc e hd
    unfold QueryProcessor.process_queries
    rw [if_pos hc, hd]
  · intro e he
    unfold QueryProcessor._process_document
    rw [he]
  · intro h0
    unfold QueryProcessor._process_document
    rw [h0]
    rfl

/-- Concrete seams for the C1 witness: the document yields one chunk, the
index build succeeds, question "q2" fails with "boom", others succeed. -/
def c1ProcDoc : List Char → Except (List Char) (List DocumentChunk) :=
  fun _ => .ok [⟨str "text", [], str "id1", none⟩]

def c1Embed : List DocumentChunk → Except (List Char) Unit := fun _ => .ok ()

def c1Single : List Char → Except (List Char) (List Char) :=
  fun q => if q = str "q2" then .error (str "boom") else .ok (str "fine")

/-- Witness for C1 at a concrete input: three questions, the middle one
failing, still yield three aligned answers with the inline error string in
the middle. -/
theorem C1_process_queries_witness :
    [str "fine", str "Error processing question: boom", str "fine"] =
      [str "q1", str "q2", str "q3"].map
        (QueryProcessor.answerOne c1Single) ∧
    ([str "fine", str "Error processing question: boom", str "fine"] :
      List (List Char)).length = [str "q1", str "q2", str "q3"].length :=
  (C1_process_queries c1ProcDoc c1Embed c1Single none (str "u")
    [str "q1", str "q2", str "q3"]).1 (some (str "u"))
    [str "fine", str "Error processing question: boom", str "fine"]
    (by rfl)

/-! ## services/document_processor.py — DocumentProcessor._chunk_text -/

/-- Matcher for a maximal non-empty run of characters satisfying `p`
(the shape of `\s+` and `\.+`). -/
def charRunM (p : Char → Bool) : Matcher
  | [] => none
  | c :: cs =>
    if p c then
      match charRunM p cs with
      | some n => some (n + 1)
      | _ => some 1
    else none

/-- Matcher for `\s+`: a maximal non-empty run of whitespace. -/
def wsRun : Matcher := charRunM Char.isWhitespace

theorem charRunM_pos (p : Char → Bool) :
    ∀ (s : List Char) (n : Nat), charRunM p s = some n → 1 ≤ n := by
  intro s n h
  cases s with
  | nil => simp [charRunM] at h
  | cons c cs =>
    unfold charRunM at h
    by_cases hp : p c
    · rw [if_pos hp] at h
      cases hr : charRunM p cs with
      | none => rw [hr] at h; simp at h; omega
      | some m => rw [hr] at h; simp at h; omega
    · rw [if_neg hp] at h; simp at h

theorem charRunM_none (p : Char → Bool) (c : Char) (cs : List Char)
    (h : charRunM p (c :: cs) = none) : p c = false := by
  unfold charRunM at h
  by_cases hp : p c
  · rw [if_pos hp] at h
    cases hr : charRunM p cs with
    | none => rw [hr] at h; simp at h
    | some m => rw [hr] at h; simp at h
  · simpa using hp

/-- A matched run is maximal: the character right after the run does not
satisfy `p`. -/
theorem charRunM_drop (p : Char → Bool) :
    ∀ (cs : List Char) (c : Char) (n : Nat),
      charRunM p (c :: cs) = some (n + 1) →
      ∀ d ∈ (List.drop n cs).head?, p d = false := by
  intro cs
  induction cs with
  | nil =>
    intro c n h d hd
    unfold charRunM at h
    by_cases hp : p c
    · rw [if_pos hp] at h
      simp only [charRunM] at h
      simp at h
      subst h
      simp at hd
    · rw [if_neg hp] at h; simp at h
  | cons e cs' ih =>
    intro c n h d hd
    unfold charRunM at h
    by_cases hp : p c
    · rw [if_pos hp] at h
      cases hr : charRunM p (e :: cs') with
      | none =>
        rw [hr] at h
        simp at h
        subst h
        simp only [List.drop_zero, List.head?_cons, Option.mem_def,
          Option.some.injEq] at hd
        subst hd
        exact charRunM_none p e cs' hr
      | some m =>
        rw [hr] at h
        simp at h
        have hm : 1 ≤ m := charRunM_pos p _ _ hr
        obtain ⟨m', rfl⟩ : ∃ m', m = m' + 1 := ⟨m - 1, by omega⟩
        have hn : n = m' + 1 := by omega
        subst hn
        rw [List.drop_succ_cons] at hd
        exact ih e m' hr d hd
    · rw [if_neg hp] at h; simp at h

/-- A character of a substituted string satisfying `p` can only come from
the replacement (every `p`-run of the input is consumed by the run
matcher). -/
theorem subAllF_charRunM_mem_repl (p : Char → Bool) (repl : List Char) :
    ∀ (fuel : Nat) (s : List Char), s.length ≤ fuel →
      ∀ c ∈ subAllF (charRunM p) repl fuel s, p c = true → c ∈ repl := by
  intro fuel
  induction fuel with
  | zero =>
    intro s hlen c hc
    have : s = [] := List.length_eq_zero.mp (by omega)
    subst this
    simp [subAllF] at hc
  | succ f ih =>
    intro s hlen c hc hp
    cases s with
    | nil => simp [subAllF] at hc
    | cons a as =>
      simp only [subAllF] at hc
      cases hm : charRunM p (a :: as) with
      | none =>
        rw [hm] at hc
        rcases List.mem_cons.mp hc with h | h
        · subst h
          rw [charRunM_none p _ _ hm] at hp
          exact absurd hp (by simp)
        · exact ih as (by simp at hlen ⊢; omega) c h hp
      | some k =>
        cases k with
        | zero => exact absurd (charRunM_pos p _ _ hm) (by omega)
        | succ j =>
          rw [hm] at hc
          rcases List.mem_append.mp hc with h | h
          · exact h
          · refine ih (List.drop j as) ?_ c h hp
            have : (List.drop j as).length ≤ as.length := by
              rw [List.length_drop]
              omega
            simp at hlen ⊢
            omega

/-- The head of the input does not satisfy `p` → neither does the head of
the substituted output. -/
theorem headNot_subAllF_self (p : Char → Bool) (repl : List Char) :
    ∀ (fuel : Nat) (s : List Char), (∀ c ∈ s.head?, p c = false) →
      ∀ d ∈ (subAllF (charRunM p) repl fuel s).head?, p d = false := by
  intro fuel s hs d hd
  cases fuel with
  | zero =>
    have h0 : subAllF (charRunM p) repl 0 s = s := by cases s <;> rfl
    rw [h0] at hd
    exact hs d hd
  | succ f =>
    cases s with
    | nil => simp [subAllF] at hd
    | cons a as =>
      have hpa : p a = false := hs a (by simp)
      have hm : charRunM p (a :: as) = none := by
        unfold charRunM
        rw [if_neg (by simp [hpa])]
      simp only [subAllF, hm] at hd
      simp at hd
      exact hd ▸ hpa

namespace DocumentProcessor

/-- The text normalization `re.sub(r'\s+', ' ', text).strip()` that opens
`_chunk_text`. -/
def normalizeText (text : List Char) : List Char :=
  pyStrip (subAll wsRun (str " ") text)

/-- Worker for Python `text.rfind(ch, start, endPos)`: try the `k`
positions `start + k - 1`, …, `start` from the right. -/
def pyRfindAux (text : List Char) (ch : Char) (start : Nat) : Nat → Int
  | 0 => -1
  | k + 1 =>
    if text.get? (start + k) = some ch then ((start + k : Nat) : Int)
    else pyRfindAux text ch start k

/-- Python `text.rfind(ch, start, endPos)`: highest index of `ch` in
`[start, min(endPos, len))`, or `-1`. -/
def pyRfind (text : List Char) (ch : Char) (start endPos : Nat) : Int :=
  pyRfindAux text ch start (min endPos text.length - start)

/-- Python slicing `text[start:endPos]` (with clamping). -/
def pySlice (text : List Char) (start endPos : Nat) : List Char :=
  (text.take endPos).drop start

/-- The boundary-snapping step of `_chunk_text`: look for the last
sentence terminator and the last paragraph break inside the window, trim
to `last_sentence + 1` when the sentence break is after the window start,
else to `last_paragraph` when that is after the window start. -/
def trimmedEnd (text : List Char) (start endPos : Nat) : Nat :=
  let last_sentence := pyRfind text '.' start endPos
  let last_paragraph := pyRfind text '\n' start endPos
  if (start : Int) < last_sentence then last_sentence.toNat + 1
  else if (start : Int) < last_paragraph then last_paragraph.toNat
  else endPos

/-- `start = max(start + 1, end - self.chunk_overlap)` (for a negative
Python value of `end - overlap`, truncated Nat subtraction and the `max`
agree with Python's result). -/
def nextStart (start endPos chunk_overlap : Nat) : Nat :=
  max (start + 1) (endPos - chunk_overlap)

/-- `metadata.get("page_number")` as pydantic coerces it into the
`Optional[int]` field. -/
def pageOf (m : Metadata) : Option Int :=
  match metaGet m (str "page_number") with
  | some (.vInt n) => some n
  | _ => none

/-- The `while start < len(text)` loop of `_chunk_text`, fuelled (the fuel
only needs to cover `len(text) - start` iterations since `start` strictly
increases).  `ids` is the stream of `generate_chunk_id()` results, `idx`
the number of ids consumed so far, `chunk_num` the running
`chunk_number`. -/
def chunkLoopF (ids : Nat → List Char) (chunk_size chunk_overlap : Nat)
    (text : List Char) (metadata : Metadata) :
    Nat → Nat → Nat → Nat → List DocumentChunk
  | 0, _, _, _ => []
  | fuel + 1, start, chunk_num, idx =>
    if start < text.length then
      let end0 := start + chunk_size
      let end1 := if end0 < text.length then trimmedEnd text start end0 else end0
      let chunk_content := pyStrip (pySlice text start end1)
      if chunk_content ≠ [] then
        ⟨chunk_content,
         metaSet metadata (str "chunk_number") (.vInt chunk_num),
         ids idx, pageOf metadata⟩ ::
          chunkLoopF ids chunk_size chunk_overlap text metadata fuel
            (nextStart start end1 chunk_overlap) (chunk_num + 1) (idx + 1)
      else
        chunkLoopF ids chunk_size chunk_overlap text metadata fuel
          (nextStart start end1 chunk_overlap) (chunk_num + 1) idx
    else []

/-- `DocumentProcessor._chunk_text`. -/
def _chunk_text (ids : Nat → List Char) (chunk_size chunk_overlap : Nat)
    (text : List Char) (metadata : Metadata) : List DocumentChunk :=
  let t := normalizeText text
  if t.length ≤ chunk_size then
    [⟨t, metadata, ids 0, pageOf metadata⟩]
  else
    chunkLoopF ids chunk_size chunk_overlap t metadata t.length 0 0 0

end DocumentProcessor

namespace DocumentProcessor

theorem nextStart_gt (start endPos co : Nat) :
    start < nextStart start endPos co :=
  Nat.lt_of_lt_of_le (Nat.lt_succ_self start) (le_max_left _ _)

theorem chunkLoopF_fuel_irrel (ids : Nat → List Char) (cs co : Nat)
    (t : List Char) (meta : Metadata) :
    ∀ fuel₁ fuel₂ start n i,
      t.length ≤ start + fuel₁ → t.length ≤ start + fuel₂ →
      chunkLoopF ids cs co t meta fuel₁ start n i =
        chunkLoopF ids cs co t meta fuel₂ start n i := by
  intro fuel₁
  induction fuel₁ with
  | zero =>
    intro fuel₂ start n i h1 _
    have hns : ¬ start < t.length := by omega
    cases fuel₂ with
    | zero => rfl
    | succ f₂ => simp only [chunkLoopF, if_neg hns]
  | succ f ih =>
    intro fuel₂ start n i h1 h2
    cases fuel₂ with
    | zero =>
      have hns : ¬ start < t.length := by omega
      simp only [chunkLoopF, if_neg hns]
    | succ f₂ =>
      simp only [chunkLoopF]
      by_cases hst : start < t.length
      · rw [if_pos hst, if_pos hst]
        have hn := nextStart_gt start
          (if start + cs < t.length then trimmedEnd t start (start + cs)
            else start + cs) co
        by_cases hcc : pyStrip (pySlice t start
            (if start + cs < t.length then trimmedEnd t start (start + cs)
              else start + cs)) ≠ []
        · rw [if_pos hcc, if_pos hcc]
          rw [ih f₂ _ (n + 1) (i + 1) (by omega) (by omega)]
        · rw [if_neg hcc, if_neg hcc]
          rw [ih f₂ _ (n + 1) i (by omega) (by omega)]
      · rw [if_neg hst, if_neg hst]

end DocumentProcessor

/-- Claim C9: for every text and every configuration of chunk size and
overlap — including overlap ≥ chunk size — the chunking loop makes strict
forward progress (`nextStart` exceeds `start`), and as a consequence it
terminates: the loop's result is already stable for any fuel covering the
at most `len - start` remaining iterations. -/
theorem C9_chunk_loop_terminates (ids : Nat → List Char) (cs co : Nat)
    (t : List Char) (meta : Metadata) :
    (∀ start endPos, start < DocumentProcessor.nextStart start endPos co)
    ∧ (∀ fuel₁ fuel₂ start n i,
        t.length ≤ start + fuel₁ → t.length ≤ start + fuel₂ →
        DocumentProcessor.chunkLoopF ids cs co t meta fuel₁ start n i =
          DocumentProcessor.chunkLoopF ids cs co t meta fuel₂ start n i) :=
  ⟨fun start endPos => DocumentProcessor.nextStart_gt start endPos co,
   DocumentProcessor.chunkLoopF_fuel_irrel ids cs co t meta⟩

/-- Identifier stream for the chunker examples. -/
def exIds : Nat → List Char := fun n => List.replicate n 'x'

/-- Witness for C9 at a concrete input: with overlap (20) ≥ chunk size (10)
the loop result over a 15-character text is the same for fuels 15 and 40. -/
theorem C9_chunk_loop_terminates_witness :
    DocumentProcessor.chunkLoopF exIds 10 20 (str "aaaa bbbbbbbbbb") [] 15 0 0 0 =
      DocumentProcessor.chunkLoopF exIds 10 20 (str "aaaa bbbbbbbbbb") [] 40 0 0 0 :=
  (C9_chunk_loop_terminates exIds 10 20 (str "aaaa bbbbbbbbbb") []).2
    15 40 0 0 0 (by decide) (by decide)

theorem metaGet_metaSet (m : Metadata) (k : List Char) (v : PyVal) :
    metaGet (metaSet m k v) k = some v := by
  induction m with
  | nil => simp [metaSet, metaGet]
  | cons kv rest ih =>
    obtain ⟨k', v'⟩ := kv
    by_cases hk : k' = k
    · simp [metaSet, metaGet, hk]
    · simp [metaSet, metaGet, hk, ih]

namespace DocumentProcessor

/-- The `chunk_number` values carried by a chunk list, in order. -/
def chunkNumbersOf (l : List DocumentChunk) : List Int :=
  l.filterMap (fun ch =>
    match metaGet ch.metadata (str "chunk_number") with
    | some (.vInt k) => some k
    | _ => none)

theorem chunkLoopF_props (ids : Nat → List Char) (cs co : Nat)
    (t : List Char) (meta : Metadata) :
    ∀ fuel start n i,
      (∀ ch ∈ chunkLoopF ids cs co t meta fuel start n i,
        (∃ k : Nat, n ≤ k ∧
          ch.metadata = metaSet meta (str "chunk_number") (.vInt (k : Int)))
        ∧ ch.page_number = pageOf meta)
      ∧ (chunkLoopF ids cs co t meta fuel start n i).map DocumentChunk.chunk_id
          = (List.range' i
              (chunkLoopF ids cs co t meta fuel start n i).length).map ids
      ∧ List.Chain' (· < ·)
          (chunkNumbersOf (chunkLoopF ids cs co t meta fuel start n i))
      ∧ (∀ z ∈ chunkNumbersOf (chunkLoopF ids cs co t meta fuel start n i),
          (n : Int) ≤ z) := by
  intro fuel
  induction fuel with
  | zero =>
    intro start n i
    exact ⟨by simp [chunkLoopF], rfl, by simp [chunkLoopF, chunkNumbersOf],
      by simp [chunkLoopF, chunkNumbersOf]⟩
  | succ f ih =>
    intro start n i
    by_cases hst : start < t.length
    · simp only [chunkLoopF, if_pos hst]
      by_cases hcc : pyStrip (pySlice t start
          (if start + cs < t.length then trimmedEnd t start (start + cs)
            else start + cs)) ≠ []
      · rw [if_pos hcc]
        obtain ⟨ih1, ih2, ih3, ih4⟩ := ih
          (nextStart start
            (if start + cs < t.length then trimmedEnd t start (start + cs)
              else start + cs) co) (n + 1) (i + 1)
        have hnum : chunkNumbersOf
            (⟨pyStrip (pySlice t start
                (if start + cs < t.length then trimmedEnd t start (start + cs)
                  else start + cs)),
              metaSet meta (str "chunk_number") (.vInt (n : Int)),
              ids i, pageOf meta⟩ ::
              chunkLoopF ids cs co t meta f
                (nextStart start
                  (if start + cs < t.length then trimmedEnd t start (start + cs)
                    else start + cs) co) (n + 1) (i + 1)) =
            (n : Int) :: chunkNumbersOf
              (chunkLoopF ids cs co t meta f
                (nextStart start
                  (if start + cs < t.length then trimmedEnd t start (start + cs)
                    else start + cs) co) (n + 1) (i + 1)) := by
          simp [chunkNumbersOf, metaGet_metaSet]
        refine ⟨?_, ?_, ?_, ?_⟩
        · intro ch hch
          rcases List.mem_cons.mp hch with h | h
          · subst h
            exact ⟨⟨n, le_refl n, rfl⟩, rfl⟩
          · obtain ⟨⟨k, hk, hkm⟩, hpg⟩ := ih1 ch h
            exact ⟨⟨k, by omega, hkm⟩, hpg⟩
        · simp only [List.map_cons, List.length_cons, List.range'_succ]
          rw [ih2]
        · rw [hnum, List.chain'_cons']
          refine ⟨?_, ih3⟩
          intro b hb
          have hbm := ih4 b (List.mem_of_mem_head? hb)
          push_cast at hbm ⊢
          omega
        · intro z hz
          rw [hnum] at hz
          rcases List.mem_cons.mp hz with h | h
          · subst h; exact le_refl _
          · have := ih4 z h
            push_cast at this ⊢
            omega
      · rw [if_neg hcc]
        obtain ⟨ih1, ih2, ih3, ih4⟩ := ih
          (nextStart start
            (if start + cs < t.length then trimmedEnd t start (start + cs)
              else start + cs) co) (n + 1) i
        refine ⟨?_, ih2, ih3, ?_⟩
        · intro ch hch
          obtain ⟨⟨k, hk, hkm⟩, hpg⟩ := ih1 ch hch
          exact ⟨⟨k, by omega, hkm⟩, hpg⟩
        · intro z hz
          have := ih4 z hz
          push_cast at this ⊢
          omega
    · simp only [chunkLoopF, if_neg hst]
      exact ⟨by simp, rfl, by simp [chunkNumbersOf], by simp [chunkNumbersOf]⟩

end DocumentProcessor

/-- Metadata for the C7 scenario, as a PDF page would provide it. -/
def c7Meta : Metadata := [(str "document_type", PyVal.vStr (str "text"))]

/-- Counterexample to claim C7: when the normalized text fits into
`chunk_size`, the single produced chunk carries the input metadata object
itself — no `chunk_number` key is added, contradicting the claim that
every chunk's metadata is a copy with a sequential `chunk_number`. -/
theorem C7_single_chunk_counterexample :
    DocumentProcessor._chunk_text exIds 1000 200 (str "hello.") c7Meta =
      [⟨str "hello.", c7Meta, exIds 0, none⟩]
    ∧ metaGet c7Meta (str "chunk_number") = none := by
  constructor
  · decide
  · decide

/-- Claim C7 as amended: every produced chunk inherits `page_number` from
the metadata; in the multi-chunk path every chunk's metadata is a copy of
the input metadata with a `chunk_number` added and these numbers strictly
increase along the output (they can skip an index when an empty window is
dropped), and for an injective id stream all chunk ids are pairwise
distinct; but the single chunk of the short-text path carries the input
metadata unchanged, with no `chunk_number` key added. -/
theorem C7_chunk_metadata_amended (ids : Nat → List Char)
    (hinj : Function.Injective ids) (cs co : Nat) (text : List Char)
    (meta : Metadata) :
    ((DocumentProcessor.normalizeText text).length ≤ cs →
      DocumentProcessor._chunk_text ids cs co text meta =
        [⟨DocumentProcessor.normalizeText text, meta, ids 0,
          DocumentProcessor.pageOf meta⟩])
    ∧ (∀ ch ∈ DocumentProcessor._chunk_text ids cs co text meta,
        ch.page_number = DocumentProcessor.pageOf meta)
    ∧ (cs < (DocumentProcessor.normalizeText text).length →
        (∀ ch ∈ DocumentProcessor._chunk_text ids cs co text meta,
          ∃ k : Nat, ch.metadata =
            metaSet meta (str "chunk_number") (.vInt (k : Int)))
        ∧ List.Chain' (· < ·) (DocumentProcessor.chunkNumbersOf
            (DocumentProcessor._chunk_text ids cs co text meta))
        ∧ ((DocumentProcessor._chunk_text ids cs co text meta).map
            DocumentChunk.chunk_id).Nodup) := by
  refine ⟨?_, ?_, ?_⟩
  · intro hle
    unfold DocumentProcessor._chunk_text
    simp [hle]
  · intro ch hch
    unfold DocumentProcessor._chunk_text at hch
    by_cases hle : (DocumentProcessor.normalizeText text).length ≤ cs
    · rw [if_pos hle] at hch
      simp only [List.mem_singleton] at hch
      subst hch
      rfl
    · rw [if_neg hle] at hch
      exact ((DocumentProcessor.chunkLoopF_props ids cs co
        (DocumentProcessor.normalizeText text) meta
        (DocumentProcessor.normalizeText text).length 0 0 0).1 ch hch).2
  · intro hlt
    have hle : ¬ (DocumentProcessor.normalizeText text).length ≤ cs := by omega
    obtain ⟨p1, p2, p3, _⟩ := DocumentProcessor.chunkLoopF_props ids cs co
      (DocumentProcessor.normalizeText text) meta
      (DocumentProcessor.normalizeText text).length 0 0 0
    refine ⟨?_, ?_, ?_⟩
    · intro ch hch
      unfold DocumentProcessor._chunk_text at hch
      rw [if_neg hle] at hch
      obtain ⟨⟨k, _, hk⟩, _⟩ := p1 ch hch
      exact ⟨k, hk⟩
    · unfold DocumentProcessor._chunk_text
      rw [if_neg hle]
      exact p3
    · unfold DocumentProcessor._chunk_text
      rw [if_neg hle]
      rw [p2]
      exact (List.nodup_range' 0 _).map hinj

/-- Witness for C7's amended theorem at a concrete input: replicate ids
are injective, and a short text yields the single unnumbered chunk. -/
theorem C7_chunk_metadata_amended_witness :
    DocumentProcessor._chunk_text exIds 1000 200 (str "short text") c7Meta =
      [⟨DocumentProcessor.normalizeText (str "short text"), c7Meta, exIds 0,
        DocumentProcessor.pageOf c7Meta⟩] :=
  (C7_chunk_metadata_amended exIds
    (fun a b h => by simpa [exIds] using congrArg List.length h)
    1000 200 (str "short text") c7Meta).1 (by decide)

theorem wsRun_pos : ∀ (s : List Char) (n : Nat), wsRun s = some n → 1 ≤ n :=
  fun s n h => charRunM_pos Char.isWhitespace s n h

theorem wsRun_none_not_ws (c : Char) (cs : List Char)
    (h : wsRun (c :: cs) = none) : c.isWhitespace = false :=
  charRunM_none Char.isWhitespace c cs h

theorem subAllF_wsRun_ws_is_space :
    ∀ (fuel : Nat) (s : List Char), s.length ≤ fuel →
      ∀ c ∈ subAllF wsRun (str " ") fuel s, c.isWhitespace → c = ' ' := by
  intro fuel
  induction fuel with
  | zero =>
    intro s hlen c hc
    have : s = [] := List.length_eq_zero.mp (by omega)
    subst this
    simp [subAllF] at hc
  | succ f ih =>
    intro s hlen c hc hw
    cases s with
    | nil => simp [subAllF] at hc
    | cons a as =>
      simp only [subAllF] at hc
      cases hm : wsRun (a :: as) with
      | none =>
        rw [hm] at hc
        rcases List.mem_cons.mp hc with h | h
        · subst h
          have := wsRun_none_not_ws _ _ hm
          rw [this] at hw; exact absurd hw (by simp)
        · exact ih as (by simpa using Nat.le_of_succ_le_succ hlen) c h hw
      | some k =>
        cases k with
        | zero => exact absurd (wsRun_pos _ _ hm) (by omega)
        | succ j =>
          rw [hm] at hc
          rcases List.mem_append.mp hc with h | h
          · simpa [str] using h
          · refine ih (List.drop j as) ?_ c h hw
            have : (List.drop j as).length ≤ as.length := by
              rw [List.length_drop]
              omega
            simp at hlen ⊢
            omega

theorem mem_of_mem_pyStrip {c : Char} {l : List Char} (h : c ∈ pyStrip l) :
    c ∈ l := by
  unfold pyStrip at h
  rw [List.mem_reverse] at h
  have h1 : c ∈ (l.dropWhile Char.isWhitespace).reverse :=
    (List.dropWhile_sublist _).mem h
  rw [List.mem_reverse] at h1
  exact (List.dropWhile_sublist _).mem h1

namespace DocumentProcessor

theorem normalizeText_no_newline (text : List Char) :
    '\n' ∉ normalizeText text := by
  intro hmem
  have h1 : '\n' ∈ subAll wsRun (str " ") text := mem_of_mem_pyStrip hmem
  have h2 := subAllF_wsRun_ws_is_space text.length text (le_refl _) '\n' h1
    (by decide)
  exact absurd h2 (by decide)

theorem pyRfindAux_of_not_mem (t : List Char) (ch : Char) (hch : ch ∉ t) :
    ∀ (start k : Nat), pyRfindAux t ch start k = -1 := by
  intro start k
  induction k with
  | zero => rfl
  | succ j ih =>
    unfold pyRfindAux
    have : ¬ t.get? (start + j) = some ch := by
      intro hg
      exact hch (List.get?_mem hg)
    rw [if_neg this]
    exact ih

theorem pyRfind_of_not_mem (t : List Char) (ch : Char) (hch : ch ∉ t)
    (start endPos : Nat) : pyRfind t ch start endPos = -1 :=
  pyRfindAux_of_not_mem t ch hch start _

end DocumentProcessor

/-- Counterexample to claim C8: for a text whose window contains a
paragraph break after the window start but no sentence terminator, the
claim predicts the window trimmed at the break (first chunk `"aaaa"`), but
normalization has already replaced the newline by a space, so the first
chunk runs through the old break position. -/
theorem C8_paragraph_break_counterexample :
    (DocumentProcessor._chunk_text exIds 10 0 (str "aaaa\nbbbbbbbbbb") []).map
        DocumentChunk.content = [str "aaaa bbbbb", str "bbbbb"]
    ∧ ∀ c ∈ (DocumentProcessor._chunk_text exIds 10 0 (str "aaaa\nbbbbbbbbbb")
        []).map DocumentChunk.content, c ≠ str "aaaa" := by
  constructor
  · decide
  · decide

/-- Claim C8 as amended: the normalized text the window loop runs on never
contains a newline, so `rfind('\n', …)` always answers `-1` and the
paragraph-break branch of the boundary snapping is dead code; the window
end is trimmed to `last_sentence + 1` exactly when a `'.'` occurs strictly
after the window start (sentence boundary preferred by construction), and
otherwise stays at `start + chunk_size`; on a text with a later paragraph
break and an earlier sentence break inside the window, the chunk boundary
lands at the sentence break. -/
theorem C8_boundary_snapping_amended (text : List Char) (start e : Nat) :
    ('\n' ∉ DocumentProcessor.normalizeText text)
    ∧ DocumentProcessor.pyRfind (DocumentProcessor.normalizeText text) '\n'
        start e = -1
    ∧ ((start : Int) <
        DocumentProcessor.pyRfind (DocumentProcessor.normalizeText text) '.'
          start e →
        DocumentProcessor.trimmedEnd (DocumentProcessor.normalizeText text)
          start e =
        (DocumentProcessor.pyRfind (DocumentProcessor.normalizeText text) '.'
          start e).toNat + 1)
    ∧ (DocumentProcessor.pyRfind (DocumentProcessor.normalizeText text) '.'
          start e ≤ (start : Int) →
        DocumentProcessor.trimmedEnd (DocumentProcessor.normalizeText text)
          start e = e)
    ∧ (DocumentProcessor._chunk_text exIds 10 0 (str "ab. cd\nef ghijklm")
        []).map DocumentChunk.content =
        [str "ab.", str "cd ef ghi", str "jklm"] := by
  have hnn := DocumentProcessor.normalizeText_no_newline text
  have hrf := DocumentProcessor.pyRfind_of_not_mem _ '\n' hnn start e
  refine ⟨hnn, hrf, ?_, ?_, by decide⟩
  · intro hlt
    simp only [DocumentProcessor.trimmedEnd]
    rw [if_pos hlt]
  · intro hle
    simp only [DocumentProcessor.trimmedEnd]
    rw [if_neg (not_lt.mpr hle), hrf, if_neg (by omega)]

/-- Witness for C8's amended theorem at a concrete input: the first window
of "one. two xyz" is trimmed right after the period at index 3. -/
theorem C8_boundary_snapping_amended_witness :
    DocumentProcessor.trimmedEnd
      (DocumentProcessor.normalizeText (str "one. two xyz")) 0 5 =
      (DocumentProcessor.pyRfind
        (DocumentProcessor.normalizeText (str "one. two xyz")) '.' 0 5).toNat
        + 1 :=
  (C8_boundary_snapping_amended (str "one. two xyz") 0 5).2.2.1 (by decide)

/-! ## services/llm_service.py — LLMService answer cleaning -/

theorem char_toNat_ofNat_of_lt (n : Nat) (h : n < 55296) :
    (Char.ofNat n).toNat = n := by
  unfold Char.ofNat
  have hv : n.isValidChar := Or.inl (by omega)
  rw [dif_pos hv]
  simp only [Char.ofNatAux, Char.toNat]
  rfl

theorem char_eq_iff_toNat (a b : Char) : a = b ↔ a.toNat = b.toNat :=
  ⟨fun h => congrArg Char.toNat h, fun h => Char.ext (UInt32.ext h)⟩

theorem toUpper_toNat (c : Char) :
    (Char.toUpper c).toNat =
      if 97 ≤ c.toNat ∧ c.toNat ≤ 122 then c.toNat - 32 else c.toNat := by
  unfold Char.toUpper
  by_cases h : c.toNat ≥ 97 ∧ c.toNat ≤ 122
  · rw [if_pos h, if_pos (by omega), char_toNat_ofNat_of_lt _ (by omega)]
  · rw [if_neg h, if_neg (by omega)]

theorem toUpper_toUpper (c : Char) :
    Char.toUpper (Char.toUpper c) = Char.toUpper c := by
  rw [char_eq_iff_toNat, toUpper_toNat, toUpper_toNat]
  split_ifs <;> omega

/-- `toUpper` cannot hit a character outside the uppercase-letter range
unless the input already was that character. -/
theorem toUpper_ne_of_ne (c d : Char) (hne : c ≠ d)
    (hd : d.toNat < 65 ∨ 90 < d.toNat) : Char.toUpper c ≠ d := by
  intro he
  have htn := congrArg Char.toNat he
  rw [toUpper_toNat] at htn
  by_cases h : 97 ≤ c.toNat ∧ c.toNat ≤ 122
  · rw [if_pos h] at htn; omega
  · rw [if_neg h] at htn; exact hne ((char_eq_iff_toNat c d).mpr htn)

namespace LLMService

/-- Case-insensitive literal match (the literal is stored lowercase, as
`re.IGNORECASE` compares): returns the remainder after the literal. -/
def matchLitCI : List Char → List Char → Option (List Char)
  | [], s => some s
  | _, [] => none
  | l :: ls, c :: cs => if c.toLower = l then matchLitCI ls cs else none

/-- The `verbose_patterns` table: anchored literal, with `true` marking the
patterns that end in `,?\s*` (the other two end in `\s*` only). -/
def verbosePatterns : List (List Char × Bool) := [
  (str "based on the provided document context", true),
  (str "according to the document", true),
  (str "according to the policy", true),
  (str "according to the provided document context", true),
  (str "the document states that", false),
  (str "from the provided context", true),
  (str "in the document", true),
  (str "as per the policy", true),
  (str "the policy states that", false)]

/-- One anchored `re.sub(r'^<lit>,?\s*', '', s)` application: at most one
removal, at the start of the string. -/
def stripVerbose (lit : List Char) (optComma : Bool) (s : List Char) :
    List Char :=
  match matchLitCI lit s with
  | none => s
  | some rest =>
    let rest1 := if optComma then
        match rest with
        | ',' :: r => r
        | _ => rest
      else rest
    rest1.dropWhile Char.isWhitespace

/-- What follows `\d+` in the individual chunk patterns: `.*?\.?` matches
the empty string (lazy star, optional period), `.*?\)` scans to the first
`)` on the same line, `(?:states|mentions|indicates)` needs a space and
one of the three words, `[:\-\s]` one more character from the class. -/
inductive ChunkTail where
  | bare
  | paren
  | triWord
  | refChar

def scanParen : List Char → Option (List Char)
  | [] => none
  | c :: cs => if c = ')' then some cs else if c = '\n' then none else scanParen cs

def tailMatch : ChunkTail → List Char → Option (List Char)
  | .bare, s => some s
  | .paren, s => scanParen s
  | .triWord, s =>
    match s with
    | ' ' :: cs =>
      match matchLitCI (str "states") cs with
      | some r => some r
      | none =>
        match matchLitCI (str "mentions") cs with
        | some r => some r
        | none => matchLitCI (str "indicates") cs
    | _ => none
  | .refChar, s =>
    match s with
    | c :: cs => if c = ':' ∨ c = '-' ∨ c.isWhitespace then some cs else none
    | [] => none

/-- A `chunk_patterns` entry: `\s*` then the literal (case-insensitive)
then `\d+` then the tail. -/
def chunkRef (lit : List Char) (tail : ChunkTail) : Matcher := fun s =>
  let s1 := s.dropWhile Char.isWhitespace
  match matchLitCI lit s1 with
  | none => none
  | some s2 =>
    match s2 with
    | c :: cs =>
      if c.isDigit then
        match tailMatch tail (cs.dropWhile Char.isDigit) with
        | some s4 => some (s.length - s4.length)
        | none => none
      else none
    | [] => none

/-- The ten `chunk_patterns`, in source order. -/
def chunkMatchers : List Matcher := [
  chunkRef (str "this is stated in chunk ") .bare,
  chunkRef (str "as mentioned in chunk ") .bare,
  chunkRef (str "and reiterated in chunk ") .bare,
  chunkRef (str "(chunk ") .paren,
  chunkRef (str "according to chunk ") .bare,
  chunkRef (str "chunk ") .triWord,
  chunkRef (str "based on chunk ") .bare,
  chunkRef (str "in chunk ") .bare,
  chunkRef (str "from chunk ") .bare,
  chunkRef (str "chunk ") .refChar]

def sectionClassB (c : Char) : Bool := c.isAlpha || c.isDigit || c = '.'

/-- `\s*as per Section [a-zA-Z0-9\.]+\.?` (and the `under Section`
variant): after the greedy character class the optional period matches
empty. -/
def sectionRef (lit : List Char) : Matcher := fun s =>
  let s1 := s.dropWhile Char.isWhitespace
  match matchLitCI lit s1 with
  | none => none
  | some s2 =>
    match s2 with
    | c :: cs =>
      if sectionClassB c then
        some (s.length - (cs.dropWhile sectionClassB).length)
      else none
    | [] => none

/-- `\n?\s*[\*\-\•]\s*` (the leading `\n?` is absorbed by `\s*`). -/
def bulletMark : Matcher := fun s =>
  let s1 := s.dropWhile Char.isWhitespace
  match s1 with
  | c :: cs =>
    if c = '*' ∨ c = '-' ∨ c = '•' then
      some (s.length - (cs.dropWhile Char.isWhitespace).length)
    else none
  | [] => none

/-- `\n?\s*\d+\.\s*`. -/
def bulletNum : Matcher := fun s =>
  let s1 := s.dropWhile Char.isWhitespace
  match s1 with
  | c :: cs =>
    if c.isDigit then
      match cs.dropWhile Char.isDigit with
      | '.' :: rest => some (s.length - (rest.dropWhile Char.isWhitespace).length)
      | _ => none
    else none
  | [] => none

/-- `\.+`: a maximal non-empty run of periods. -/
def periodRun : Matcher := charRunM (fun c => c == '.')

/-- `LLMService._convert_bullets_to_text`. -/
def _convert_bullets_to_text (text : List Char) : List Char :=
  subAll wsRun (str " ")
    (subAll bulletNum (str " ") (subAll bulletMark (str " ") text))

/-- `if cleaned and not cleaned[0].isupper(): cleaned[0].upper() + rest`. -/
def pyCapitalizeHead : List Char → List Char
  | [] => []
  | c :: cs => if ¬ c.isUpper then c.toUpper :: cs else c :: cs

/-- `cleaned.endswith(('.', '!', '?'))`. -/
def endsWithPunct (s : List Char) : Bool :=
  match s.getLast? with
  | some c => c = '.' || c = '!' || c = '?'
  | none => false

/-- `if cleaned and not cleaned.endswith(('.', '!', '?')): cleaned += '.'`. -/
def ensureTerminal (s : List Char) : List Char :=
  if s ≠ [] ∧ endsWithPunct s = false then s ++ ['.'] else s

/-- `LLMService._clean_chunk_references`: all cleaning steps in source
order. -/
def _clean_chunk_references (text : List Char) : List Char :=
  let c1 := verbosePatterns.foldl (fun acc p => stripVerbose p.1 p.2 acc) text
  let c2 := chunkMatchers.foldl (fun acc m => subAll m [] acc) c1
  let c3 := _convert_bullets_to_text c2
  let c4 := subAll (sectionRef (str "as per section ")) [] c3
  let c5 := subAll (sectionRef (str "under section ")) [] c4
  let c6 := pyStrip (subAll wsRun (str " ") c5)
  let c7 := subAll periodRun (str ".") c6
  let c8 := pyStripChars (str " .,") c7
  let c9 := pyCapitalizeHead c8
  ensureTerminal c9

/-- `LLMService.generate_answer`: the external generation result (or its
failure, re-raised) is stripped and cleaned; nothing else is checked. -/
def generate_answer (response : Except (List Char) (List Char)) :
    Except (List Char) (List Char) :=
  match response with
  | .error e => .error e
  | .ok raw => .ok (_clean_chunk_references (pyStrip raw))

end LLMService

/-- No two adjacent characters both satisfy `p` (the generic adjacency
condition used by the cleaning-pass analysis). -/
def NoTwo (p : Char → Bool) (a b : Char) : Prop := ¬(p a = true ∧ p b = true)

/-- After a run-substitution pass with a single-character replacement, no
two adjacent characters satights `p`: each maximal `p`-run became one
`r`. -/
theorem chain_subAllF_self (p : Char → Bool) (r : Char) :
    ∀ (fuel : Nat) (s : List Char), s.length ≤ fuel →
      List.Chain' (NoTwo p) (subAllF (charRunM p) [r] fuel s) := by
  intro fuel
  induction fuel with
  | zero =>
    intro s hlen
    have : s = [] := List.length_eq_zero.mp (by omega)
    subst this
    exact List.chain'_nil
  | succ f ih =>
    intro s hlen
    cases s with
    | nil => simp [subAllF]
    | cons a as =>
      simp only [subAllF]
      cases hm : charRunM p (a :: as) with
      | none =>
        rw [List.chain'_cons']
        refine ⟨?_, ih as (by simp at hlen ⊢; omega)⟩
        intro y hy
        intro ⟨hpa, _⟩
        rw [charRunM_none p _ _ hm] at hpa
        exact absurd hpa (by simp)
      | some k =>
        cases k with
        | zero => exact absurd (charRunM_pos p _ _ hm) (by omega)
        | succ j =>
          have hlen' : (List.drop j as).length ≤ f := by
            rw [List.length_drop]
            simp at hlen
            omega
          simp only [List.cons_append, List.nil_append]
          rw [List.chain'_cons']
          refine ⟨?_, ih (List.drop j as) hlen'⟩
          intro y hy
          intro ⟨_, hpy⟩
          have := headNot_subAllF_self p [r] f (List.drop j as)
            (charRunM_drop p as a j hm) y hy
          rw [this] at hpy
          exact absurd hpy (by simp)

/-- Head preservation for a different character class `q` when the
replacement is `q`-free. -/
theorem headNot_subAllF_other (p : Char → Bool) (r : Char) (q : Char → Bool)
    (hqr : q r = false) :
    ∀ (fuel : Nat) (s : List Char), (∀ c ∈ s.head?, q c = false) →
      ∀ d ∈ (subAllF (charRunM p) [r] fuel s).head?, q d = false := by
  intro fuel s hs d hd
  cases fuel with
  | zero =>
    have h0 : subAllF (charRunM p) [r] 0 s = s := by cases s <;> rfl
    rw [h0] at hd
    exact hs d hd
  | succ f =>
    cases s with
    | nil => simp [subAllF] at hd
    | cons a as =>
      simp only [subAllF] at hd
      cases hm : charRunM p (a :: as) with
      | none =>
        rw [hm] at hd
        simp at hd
        exact hd ▸ hs a (by simp)
      | some k =>
        cases k with
        | zero =>
          rw [hm] at hd
          simp at hd
          exact hd ▸ hs a (by simp)
        | succ j =>
          rw [hm] at hd
          simp at hd
          exact hd ▸ hqr

/-- A run-substitution pass for `p` with a `q`-free single-character
replacement preserves the no-two-adjacent-`q` condition. -/
theorem chain_subAllF_other (p : Char → Bool) (r : Char) (q : Char → Bool)
    (hqr : q r = false) :
    ∀ (fuel : Nat) (s : List Char), s.length ≤ fuel →
      List.Chain' (NoTwo q) s →
      List.Chain' (NoTwo q) (subAllF (charRunM p) [r] fuel s) := by
  intro fuel
  induction fuel with
  | zero =>
    intro s hlen hch
    have h0 : subAllF (charRunM p) [r] 0 s = s := by cases s <;> rfl
    rw [h0]
    exact hch
  | succ f ih =>
    intro s hlen hch
    cases s with
    | nil => simp [subAllF]
    | cons a as =>
      have hch' : List.Chain' (NoTwo q) as := (List.chain'_cons'.mp hch).2
      simp only [subAllF]
      cases hm : charRunM p (a :: as) with
      | none =>
        rw [List.chain'_cons']
        refine ⟨?_, ih as (by simp at hlen ⊢; omega) hch'⟩
        intro y hy
        intro ⟨hqa, hqy⟩
        have hhead : ∀ c ∈ as.head?, q c = false := by
          intro c hc
          by_contra hqc
          exact (List.chain'_cons'.mp hch).1 c hc ⟨hqa, by simpa using hqc⟩
        have := headNot_subAllF_other p r q hqr f as hhead y hy
        rw [this] at hqy
        exact absurd hqy (by simp)
      | some k =>
        cases k with
        | zero => exact absurd (charRunM_pos p _ _ hm) (by omega)
        | succ j =>
          have hlen' : (List.drop j as).length ≤ f := by
            rw [List.length_drop]
            simp at hlen
            omega
          have hchd : List.Chain' (NoTwo q) (List.drop j as) :=
            hch'.suffix (List.drop_suffix j as)
          simp only [List.cons_append, List.nil_append]
          rw [List.chain'_cons']
          refine ⟨?_, ih (List.drop j as) hlen' hchd⟩
          intro y hy
          intro ⟨hqa, _⟩
          rw [hqr] at hqa
          exact absurd hqa (by simp)

/-- A run substitution is the identity on a string whose `p`-characters
are all the replacement character and never adjacent. -/
theorem subAllF_run_eq_self (p : Char → Bool) (r : Char) :
    ∀ (fuel : Nat) (s : List Char), (∀ c ∈ s, p c = true → c = r) →
      List.Chain' (NoTwo p) s →
      subAllF (charRunM p) [r] fuel s = s := by
  intro fuel
  induction fuel with
  | zero => intro s _ _; cases s <;> rfl
  | succ f ih =>
    intro s hall hch
    cases s with
    | nil => rfl
    | cons a as =>
      have hch' : List.Chain' (NoTwo p) as := (List.chain'_cons'.mp hch).2
      have hall' : ∀ c ∈ as, p c = true → c = r := fun c hc => hall c (by simp [hc])
      simp only [subAllF]
      by_cases hpa : p a = true
      · have hane : charRunM p as = none := by
          cases as with
          | nil => rfl
          | cons b bs =>
            have hb : p b = false := by
              by_contra hqb
              exact (List.chain'_cons'.mp hch).1 b (by simp)
                ⟨hpa, by simpa using hqb⟩
            unfold charRunM
            rw [if_neg (by simp [hb])]
        have hm : charRunM p (a :: as) = some 1 := by
          unfold charRunM
          rw [if_pos hpa, hane]
        rw [hm]
        simp only [List.drop_zero, List.cons_append, List.nil_append]
        rw [ih as hall' hch', hall a (by simp) hpa]
      · have hm : charRunM p (a :: as) = none := by
          unfold charRunM
          rw [if_neg hpa]
        rw [hm]
        rw [ih as hall' hch']

theorem toNat_of_isWhitespace (x : Char) (h : x.isWhitespace = true) :
    x.toNat = 32 ∨ x.toNat = 9 ∨ x.toNat = 13 ∨ x.toNat = 10 := by
  simp only [Char.isWhitespace, Bool.or_eq_true, decide_eq_true_eq] at h
  rcases h with ((h | h) | h) | h <;> subst h <;> decide

/-- `toUpper` maps non-whitespace to non-whitespace. -/
theorem toUpper_not_ws (c : Char) (h : c.isWhitespace = false) :
    (Char.toUpper c).isWhitespace = false := by
  by_contra hw
  have hw' : (Char.toUpper c).isWhitespace = true := by
    cases hu : (Char.toUpper c).isWhitespace
    · exact absurd hu hw
    · rfl
  have htn := toNat_of_isWhitespace _ hw'
  rw [toUpper_toNat] at htn
  by_cases hr : 97 ≤ c.toNat ∧ c.toNat ≤ 122
  · rw [if_pos hr] at htn; omega
  · rw [if_neg hr] at htn
    have : c.isWhitespace = true := by
      simp only [Char.isWhitespace, Bool.or_eq_true, decide_eq_true_eq]
      rcases htn with h32 | h9 | h13 | h10
      · exact Or.inl (Or.inl (Or.inl ((char_eq_iff_toNat c ' ').mpr (by simpa using h32))))
      · exact Or.inl (Or.inl (Or.inr ((char_eq_iff_toNat c '\t').mpr (by simpa using h9))))
      · exact Or.inl (Or.inr ((char_eq_iff_toNat c '\x0d').mpr (by simpa using h13)))
      · exact Or.inr ((char_eq_iff_toNat c '\n').mpr (by simpa using h10))
    rw [this] at h; exact absurd h (by simp)

/-- Python `l.dropWhile` leaves a list whose head fails the test. -/
theorem headNot_dropWhile (p : Char → Bool) :
    ∀ (l : List Char), ∀ c ∈ (l.dropWhile p).head?, p c = false := by
  intro l
  induction l with
  | nil => intro c hc; simp at hc
  | cons a as ih =>
    intro c hc
    rw [List.dropWhile_cons] at hc
    by_cases hp : p a = true
    · rw [if_pos hp] at hc
      exact ih c hc
    · rw [if_neg hp] at hc
      simp at hc
      subst hc
      simpa using hp

theorem dropWhile_eq_self_of_headNot (p : Char → Bool) (l : List Char)
    (h : ∀ c ∈ l.head?, p c = false) : l.dropWhile p = l := by
  cases l with
  | nil => rfl
  | cons a as =>
    rw [List.dropWhile_cons, if_neg (by simp [h a (by simp)])]

theorem getLast?_of_suffix {l₁ l₂ : List Char} (h : l₂ <:+ l₁)
    (hne : l₂ ≠ []) : l₂.getLast? = l₁.getLast? := by
  obtain ⟨t, rfl⟩ := h
  rw [List.getLast?_append]
  cases hl : l₂.getLast? with
  | none => exact absurd (List.getLast?_eq_none_iff.mp hl) hne
  | some x => rfl

/-- The shared shape of Python `strip()`/`strip(chars)`: drop matching
characters from both ends. -/
def stripEnds (p : Char → Bool) (l : List Char) : List Char :=
  ((l.dropWhile p).reverse.dropWhile p).reverse

theorem pyStrip_eq_stripEnds (l : List Char) :
    pyStrip l = stripEnds Char.isWhitespace l := rfl

theorem pyStripChars_eq_stripEnds (chars l : List Char) :
    pyStripChars chars l = stripEnds (· ∈ chars) l := rfl

theorem chain_NoTwo_reverse (q : Char → Bool) {l : List Char}
    (h : List.Chain' (NoTwo q) l) : List.Chain' (NoTwo q) l.reverse := by
  rw [List.chain'_reverse]
  exact h.imp (fun a b hab hyx => hab ⟨hyx.2, hyx.1⟩)

theorem mem_stripEnds (p : Char → Bool) {c : Char} {l : List Char}
    (h : c ∈ stripEnds p l) : c ∈ l := by
  unfold stripEnds at h
  rw [List.mem_reverse] at h
  have h1 : c ∈ (l.dropWhile p).reverse :=
    (List.dropWhile_sublist _).mem h
  rw [List.mem_reverse] at h1
  exact (List.dropWhile_sublist _).mem h1

theorem headNot_stripEnds (p : Char → Bool) (l : List Char) :
    ∀ c ∈ (stripEnds p l).head?, p c = false := by
  intro c hc
  unfold stripEnds at hc
  rw [List.head?_reverse] at hc
  have hne : (l.dropWhile p).reverse.dropWhile p ≠ [] := by
    intro h0; rw [h0] at hc; simp at hc
  rw [getLast?_of_suffix (List.dropWhile_suffix p) hne,
    List.getLast?_reverse] at hc
  exact headNot_dropWhile p l c hc

theorem lastNot_stripEnds (p : Char → Bool) (l : List Char) :
    ∀ c ∈ (stripEnds p l).getLast?, p c = false := by
  intro c hc
  unfold stripEnds at hc
  rw [List.getLast?_reverse] at hc
  exact headNot_dropWhile p _ c hc

theorem chain_stripEnds (q p : Char → Bool) (l : List Char)
    (h : List.Chain' (NoTwo q) l) :
    List.Chain' (NoTwo q) (stripEnds p l) := by
  unfold stripEnds
  exact chain_NoTwo_reverse q
    (((chain_NoTwo_reverse q (h.suffix (List.dropWhile_suffix p))).suffix
      (List.dropWhile_suffix p)))

theorem stripEnds_eq_self (p : Char → Bool) (l : List Char)
    (hh : ∀ c ∈ l.head?, p c = false)
    (hl : ∀ c ∈ l.getLast?, p c = false) : stripEnds p l = l := by
  unfold stripEnds
  rw [dropWhile_eq_self_of_headNot p l hh,
    dropWhile_eq_self_of_headNot p l.reverse
      (by rw [List.head?_reverse]; exact hl),
    List.reverse_reverse]

theorem stripEnds_append_one (p : Char → Bool) (l : List Char) (x : Char)
    (hx : p x = true) (hne : l ≠ [])
    (hh : ∀ c ∈ l.head?, p c = false)
    (hl : ∀ c ∈ l.getLast?, p c = false) :
    stripEnds p (l ++ [x]) = l := by
  unfold stripEnds
  have hh' : ∀ c ∈ (l ++ [x]).head?, p c = false := by
    intro c hc
    cases l with
    | nil => exact absurd rfl hne
    | cons a as =>
      simp at hc
      exact hc ▸ hh a (by simp)
  rw [dropWhile_eq_self_of_headNot p _ hh', List.reverse_append]
  simp only [List.reverse_cons, List.reverse_nil, List.nil_append,
    List.singleton_append]
  rw [List.dropWhile_cons, if_pos (by simp [hx]),
    dropWhile_eq_self_of_headNot p l.reverse
      (by rw [List.head?_reverse]; exact hl),
    List.reverse_reverse]

/-- Characters of a substituted string come from the replacement or the
input. -/
theorem mem_subAllF (m : Matcher) (repl : List Char) :
    ∀ (fuel : Nat) (s : List Char) (c : Char),
      c ∈ subAllF m repl fuel s → c ∈ repl ∨ c ∈ s := by
  intro fuel
  induction fuel with
  | zero =>
    intro s c hc
    have h0 : subAllF m repl 0 s = s := by cases s <;> rfl
    rw [h0] at hc
    exact Or.inr hc
  | succ f ih =>
    intro s c hc
    cases s with
    | nil => simp [subAllF] at hc
    | cons a as =>
      simp only [subAllF] at hc
      cases hm : m (a :: as) with
      | none =>
        rw [hm] at hc
        rcases List.mem_cons.mp hc with h | h
        · exact Or.inr (by simp [h])
        · rcases ih as c h with h' | h'
          · exact Or.inl h'
          · exact Or.inr (by simp [h'])
      | some k =>
        cases k with
        | zero =>
          rw [hm] at hc
          rcases List.mem_cons.mp hc with h | h
          · exact Or.inr (by simp [h])
          · rcases ih as c h with h' | h'
            · exact Or.inl h'
            · exact Or.inr (by simp [h'])
        | succ j =>
          rw [hm] at hc
          rcases List.mem_append.mp hc with h | h
          · exact Or.inl h
          · rcases ih (List.drop j as) c h with h' | h'
            · exact Or.inl h'
            · exact Or.inr (by simp [List.mem_of_mem_drop h'])

namespace LLMService

/-- The characters removed by `strip(' .,')`. -/
def stripSet : List Char := str " .,"

/-- No removal pattern of the cleaning pass fires on `s`. -/
def artifactFree (s : List Char) : Bool :=
  verbosePatterns.all (fun p => (matchLitCI p.1 s).isNone)
  && chunkMatchers.all (fun m => !hasMatch m s)
  && !hasMatch bulletMark s
  && !hasMatch bulletNum s
  && !hasMatch (sectionRef (str "as per section ")) s
  && !hasMatch (sectionRef (str "under section ")) s

/-- Every whitespace character is a plain space. -/
def wsSpace (s : List Char) : Prop :=
  ∀ c ∈ s, c.isWhitespace = true → c = ' '

/-- The terminal shape a cleaned string has: it ends in `!`, `?`, or in a
final `.` appended behind a character that the strip/append steps leave
alone. -/
def endShape (s : List Char) : Prop :=
  s.getLast? = some '!' ∨ s.getLast? = some '?' ∨
  (s.getLast? = some '.' ∧ s.dropLast ≠ [] ∧
    ∀ c ∈ s.dropLast.getLast?,
      c ∉ stripSet ∧ c ≠ '.' ∧ c ≠ '!' ∧ c ≠ '?')

/-- The structural invariant every output of `_clean_chunk_references`
satisfies. -/
def cleanShape (s : List Char) : Prop :=
  s = [] ∨
    (wsSpace s
     ∧ List.Chain' (NoTwo Char.isWhitespace) s
     ∧ List.Chain' (NoTwo (fun c => c == '.')) s
     ∧ (∀ c ∈ s.head?, c ∉ stripSet)
     ∧ (∀ c ∈ s.head?, c.isUpper = true ∨ c.toUpper = c)
     ∧ endShape s)

theorem foldl_stripVerbose_eq_self :
    ∀ (ps : List (List Char × Bool)) (s : List Char),
      (∀ p ∈ ps, (matchLitCI p.1 s).isNone = true) →
      ps.foldl (fun acc p => stripVerbose p.1 p.2 acc) s = s := by
  intro ps
  induction ps with
  | nil => intro s _; rfl
  | cons p ps ih =>
    intro s h
    have h1 : matchLitCI p.1 s = none := by
      have hp := h p (by simp)
      cases hm : matchLitCI p.1 s with
      | none => rfl
      | some r => rw [hm] at hp; simp at hp
    have h2 : stripVerbose p.1 p.2 s = s := by
      unfold stripVerbose
      rw [h1]
    simp only [List.foldl_cons, h2]
    exact ih s (fun q hq => h q (by simp [hq]))

theorem foldl_subAll_eq_self :
    ∀ (ms : List Matcher) (s : List Char),
      (∀ m ∈ ms, hasMatch m s = false) →
      ms.foldl (fun acc m => subAll m [] acc) s = s := by
  intro ms
  induction ms with
  | nil => intro s _; rfl
  | cons m ms ih =>
    intro s h
    simp only [List.foldl_cons, subAll_of_not_hasMatch m [] s (h m (by simp))]
    exact ih s (fun q hq => h q (by simp [hq]))

theorem subAll_wsRun_eq_self (s : List Char) (h1 : wsSpace s)
    (h2 : List.Chain' (NoTwo Char.isWhitespace) s) :
    subAll wsRun (str " ") s = s :=
  subAllF_run_eq_self Char.isWhitespace ' ' s.length s h1 h2

theorem subAll_periodRun_eq_self (s : List Char)
    (h : List.Chain' (NoTwo (fun c => c == '.')) s) :
    subAll periodRun (str ".") s = s :=
  subAllF_run_eq_self (fun c => c == '.') '.' s.length s
    (fun c _ hc => by simpa using hc) h

theorem convert_bullets_eq_self (s : List Char)
    (hA : hasMatch bulletMark s = false) (hB : hasMatch bulletNum s = false)
    (h1 : wsSpace s) (h2 : List.Chain' (NoTwo Char.isWhitespace) s) :
    _convert_bullets_to_text s = s := by
  unfold _convert_bullets_to_text
  rw [subAll_of_not_hasMatch bulletMark (str " ") s hA,
    subAll_of_not_hasMatch bulletNum (str " ") s hB]
  exact subAll_wsRun_eq_self s h1 h2

end LLMService

namespace LLMService

theorem headNotWS_of_shape (s : List Char) (h1 : wsSpace s)
    (h4 : ∀ c ∈ s.head?, c ∉ stripSet) :
    ∀ c ∈ s.head?, c.isWhitespace = false := by
  intro c hc
  cases hw : c.isWhitespace with
  | false => rfl
  | true =>
    have hsp := h1 c (List.mem_of_mem_head? hc) hw
    subst hsp
    exact absurd (by decide : (' ' : Char) ∈ stripSet) (h4 ' ' hc)

theorem lastNotWS_of_endShape (s : List Char) (h : endShape s) :
    ∀ c ∈ s.getLast?, c.isWhitespace = false := by
  intro c hc
  rcases h with h | h | ⟨h, _, _⟩ <;>
    (rw [h] at hc; simp at hc; subst hc; decide)

theorem ends_dot_split (s : List Char) (h : s.getLast? = some '.') :
    s = s.dropLast ++ ['.'] := by
  have hne : s ≠ [] := by intro h0; rw [h0] at h; simp at h
  have h2 := List.dropLast_append_getLast hne
  rw [List.getLast?_eq_getLast s hne] at h
  simp at h
  rw [h] at h2
  exact h2.symm

theorem head?_dropLast_of_ne_nil (s : List Char) (h : s.dropLast ≠ []) :
    s.dropLast.head? = s.head? := by
  cases s with
  | nil => simp at h
  | cons a as =>
    cases as with
    | nil => simp at h
    | cons b bs => simp [List.dropLast]

theorem pyStrip_eq_self (s : List Char)
    (hh : ∀ c ∈ s.head?, c.isWhitespace = false)
    (hl : ∀ c ∈ s.getLast?, c.isWhitespace = false) : pyStrip s = s := by
  rw [pyStrip_eq_stripEnds]
  exact stripEnds_eq_self _ s hh hl

theorem capHead_eq_self (s : List Char)
    (h : ∀ c ∈ s.head?, c.isUpper = true ∨ c.toUpper = c) :
    pyCapitalizeHead s = s := by
  cases s with
  | nil => rfl
  | cons c cs =>
    rcases h c (by simp) with hu | ht
    · simp only [pyCapitalizeHead]
      rw [if_neg (by simp [hu])]
    · simp only [pyCapitalizeHead]
      by_cases hu : c.isUpper = true
      · rw [if_neg (by simp [hu])]
      · rw [if_pos (by simpa using hu), ht]

theorem ensureTerminal_eq_self (s : List Char) (h : endsWithPunct s = true) :
    ensureTerminal s = s := by
  unfold ensureTerminal
  rw [if_neg]
  simp [h]

/-- Core of the idempotence analysis: on a string with the clean shape on
which no removal pattern fires, the whole cleaning pass is the
identity. -/
theorem clean_eq_self_of_shape (s : List Char) (hsh : cleanShape s)
    (haf : artifactFree s = true) : _clean_chunk_references s = s := by
  rcases hsh with rfl | ⟨h1, h2, h3, h4, h5, h6⟩
  · decide
  · simp only [artifactFree, Bool.and_eq_true, List.all_eq_true,
      Bool.not_eq_true', Option.isNone_iff_eq_none] at haf
    obtain ⟨⟨⟨⟨⟨hv, hc⟩, hbA⟩, hbB⟩, hs1⟩, hs2⟩ := haf
    have hv' : ∀ p ∈ verbosePatterns, (matchLitCI p.1 s).isNone = true := by
      intro p hp
      rw [hv p hp]
      rfl
    have hc' : ∀ m ∈ chunkMatchers, hasMatch m s = false := hc
    have e1 := foldl_stripVerbose_eq_self verbosePatterns s hv'
    have e2 := foldl_subAll_eq_self chunkMatchers s hc'
    have e3 := convert_bullets_eq_self s hbA hbB h1 h2
    have e4 := subAll_of_not_hasMatch (sectionRef (str "as per section ")) [] s hs1
    have e5 := subAll_of_not_hasMatch (sectionRef (str "under section ")) [] s hs2
    have e6w := subAll_wsRun_eq_self s h1 h2
    have e6s := pyStrip_eq_self s (headNotWS_of_shape s h1 h4)
      (lastNotWS_of_endShape s h6)
    have e7 := subAll_periodRun_eq_self s h3
    simp only [_clean_chunk_references, e1, e2, e3, e4, e5, e6w, e6s, e7]
    rcases h6 with hend | hend | ⟨hend, hdne, hdlast⟩
    · have e8 : pyStripChars (str " .,") s = s := by
        rw [pyStripChars_eq_stripEnds]
        refine stripEnds_eq_self _ s ?_ ?_
        · intro c hc0
          exact decide_eq_false (h4 c hc0)
        · intro c hc0
          rw [hend] at hc0
          simp at hc0
          subst hc0
          decide
      rw [e8, capHead_eq_self s h5, ensureTerminal_eq_self s
        (by unfold endsWithPunct; rw [hend]; rfl)]
    · have e8 : pyStripChars (str " .,") s = s := by
        rw [pyStripChars_eq_stripEnds]
        refine stripEnds_eq_self _ s ?_ ?_
        · intro c hc0
          exact decide_eq_false (h4 c hc0)
        · intro c hc0
          rw [hend] at hc0
          simp at hc0
          subst hc0
          decide
      rw [e8, capHead_eq_self s h5, ensureTerminal_eq_self s
        (by unfold endsWithPunct; rw [hend]; rfl)]
    · have hsplit := ends_dot_split s hend
      have e8 : pyStripChars (str " .,") s = s.dropLast := by
        rw [pyStripChars_eq_stripEnds]
        conv_lhs => rw [hsplit]
        refine stripEnds_append_one _ s.dropLast '.' (by decide) hdne ?_ ?_
        · intro c hc0
          rw [head?_dropLast_of_ne_nil s hdne] at hc0
          exact decide_eq_false (h4 c hc0)
        · intro c hc0
          exact decide_eq_false (hdlast c hc0).1
      rw [e8]
      have e9 : pyCapitalizeHead s.dropLast = s.dropLast := by
        refine capHead_eq_self s.dropLast ?_
        intro c hc0
        rw [head?_dropLast_of_ne_nil s hdne] at hc0
        exact h5 c hc0
      rw [e9]
      have e10 : ensureTerminal s.dropLast = s.dropLast ++ ['.'] := by
        unfold ensureTerminal
        rw [if_pos]
        refine ⟨hdne, ?_⟩
        unfold endsWithPunct
        cases hg : s.dropLast.getLast? with
        | none => rfl
        | some c =>
          obtain ⟨_, hc1, hc2, hc3⟩ := hdlast c (by rw [hg]; rfl)
          simp [hc1, hc2, hc3]
      rw [e10]
      exact hsplit.symm

end LLMService

namespace LLMService

/-- The final stages of the cleaning pass establish the clean shape, no
matter what the removal stages produced. -/
theorem cleanShape_tail (x : List Char) :
    cleanShape (ensureTerminal (pyCapitalizeHead (pyStripChars (str " .,")
      (subAll periodRun (str ".")
        (pyStrip (subAll wsRun (str " ") x)))))) := by
  have f1 : wsSpace (subAll wsRun (str " ") x) := by
    intro c hc hw
    have h := subAllF_charRunM_mem_repl Char.isWhitespace (str " ")
      x.length x (le_refl _) c hc hw
    simpa [str] using h
  have f2 : List.Chain' (NoTwo Char.isWhitespace) (subAll wsRun (str " ") x) :=
    chain_subAllF_self Char.isWhitespace ' ' x.length x (le_refl _)
  have g1 : wsSpace (pyStrip (subAll wsRun (str " ") x)) := by
    intro c hc hw
    rw [pyStrip_eq_stripEnds] at hc
    exact f1 c (mem_stripEnds _ hc) hw
  have g2 : List.Chain' (NoTwo Char.isWhitespace)
      (pyStrip (subAll wsRun (str " ") x)) := by
    rw [pyStrip_eq_stripEnds]
    exact chain_stripEnds _ _ _ f2
  have g3 : ∀ c ∈ (pyStrip (subAll wsRun (str " ") x)).head?,
      c.isWhitespace = false := by
    rw [pyStrip_eq_stripEnds]
    exact headNot_stripEnds _ _
  set w := pyStrip (subAll wsRun (str " ") x) with hw
  have q1 : wsSpace (subAll periodRun (str ".") w) := by
    intro c hc hcw
    rcases mem_subAllF periodRun (str ".") w.length w c hc with h | h
    · simp [str] at h
      subst h
      exact absurd hcw (by decide)
    · exact g1 c h hcw
  have q2 : List.Chain' (NoTwo Char.isWhitespace)
      (subAll periodRun (str ".") w) :=
    chain_subAllF_other (fun c => c == '.') '.' Char.isWhitespace (by decide)
      w.length w (le_refl _) g2
  have q3 : List.Chain' (NoTwo (fun c => c == '.'))
      (subAll periodRun (str ".") w) :=
    chain_subAllF_self (fun c => c == '.') '.' w.length w (le_refl _)
  set p7 := subAll periodRun (str ".") w with hp7
  have r1 : wsSpace (pyStripChars (str " .,") p7) := by
    intro c hc hcw
    rw [pyStripChars_eq_stripEnds] at hc
    exact q1 c (mem_stripEnds _ hc) hcw
  have r2 : List.Chain' (NoTwo Char.isWhitespace)
      (pyStripChars (str " .,") p7) := by
    rw [pyStripChars_eq_stripEnds]
    exact chain_stripEnds _ _ _ q2
  have r3 : List.Chain' (NoTwo (fun c => c == '.'))
      (pyStripChars (str " .,") p7) := by
    rw [pyStripChars_eq_stripEnds]
    exact chain_stripEnds _ _ _ q3
  have r4 : ∀ c ∈ (pyStripChars (str " .,") p7).head?,
      decide (c ∈ str " .,") = false := by
    rw [pyStripChars_eq_stripEnds]
    exact headNot_stripEnds _ _
  have r5 : ∀ c ∈ (pyStripChars (str " .,") p7).getLast?,
      decide (c ∈ str " .,") = false := by
    rw [pyStripChars_eq_stripEnds]
    exact lastNot_stripEnds _ _
  cases hSc : pyStripChars (str " .,") p7 with
  | nil =>
    left
    rfl
  | cons c cs =>
    rw [hSc] at r1 r2 r3 r4 r5
    have hcnotset : c ∉ str " .," := of_decide_eq_false (r4 c (by simp))
    have hcsp : c ≠ ' ' := fun h => hcnotset (by rw [h]; decide)
    have hcdot : c ≠ '.' := fun h => hcnotset (by rw [h]; decide)
    have hccom : c ≠ ',' := fun h => hcnotset (by rw [h]; decide)
    have hcws : c.isWhitespace = false := by
      cases hwc : c.isWhitespace with
      | false => rfl
      | true => exact absurd (r1 c (by simp) hwc) hcsp
    have hcap : pyCapitalizeHead (c :: cs) =
        (if ¬ c.isUpper = true then c.toUpper else c) :: cs := by
      simp only [pyCapitalizeHead]
      by_cases hu : c.isUpper = true
      · rw [if_neg (by simp [hu]), if_neg (by simp [hu])]
      · rw [if_pos (by simpa using hu), if_pos (by simpa using hu)]
    rw [hcap]
    set c' := if ¬ c.isUpper = true then c.toUpper else c with hc'
    have hc'ws : c'.isWhitespace = false := by
      rw [hc']
      by_cases hu : c.isUpper = true
      · rw [if_neg (by simp [hu])]; exact hcws
      · rw [if_pos (by simpa using hu)]; exact toUpper_not_ws c hcws
    have hc'dot : c' ≠ '.' := by
      rw [hc']
      by_cases hu : c.isUpper = true
      · rw [if_neg (by simp [hu])]; exact hcdot
      · rw [if_pos (by simpa using hu)]
        exact toUpper_ne_of_ne c '.' hcdot (by decide)
    have hc'set : c' ∉ str " .," := by
      rw [hc']
      by_cases hu : c.isUpper = true
      · rw [if_neg (by simp [hu])]; exact hcnotset
      · rw [if_pos (by simpa using hu)]
        intro hm
        simp only [str] at hm
        rcases List.mem_cons.mp hm with h | hm'
        · exact toUpper_ne_of_ne c ' ' hcsp (by decide) h
        · rcases List.mem_cons.mp hm' with h | hm'' 
          · exact toUpper_ne_of_ne c '.' hcdot (by decide) h
          · rcases List.mem_cons.mp hm'' with h | h
            · exact toUpper_ne_of_ne c ',' hccom (by decide) h
            · simp at h
    have hc'canon : c'.isUpper = true ∨ c'.toUpper = c' := by
      rw [hc']
      by_cases hu : c.isUpper = true
      · rw [if_neg (by simp [hu])]; exact Or.inl hu
      · rw [if_pos (by simpa using hu)]; exact Or.inr (toUpper_toUpper c)
    have s1 : wsSpace (c' :: cs) := by
      intro d hd hdw
      rcases List.mem_cons.mp hd with h | h
      · subst h; rw [hc'ws] at hdw; exact absurd hdw (by simp)
      · exact r1 d (by simp [h]) hdw
    have s2 : List.Chain' (NoTwo Char.isWhitespace) (c' :: cs) := by
      rw [List.chain'_cons']
      exact ⟨fun y _ hpair => by rw [hc'ws] at hpair; simp at hpair,
        (List.chain'_cons'.mp r2).2⟩
    have s3 : List.Chain' (NoTwo (fun c => c == '.')) (c' :: cs) := by
      rw [List.chain'_cons']
      refine ⟨fun y _ hpair => ?_, (List.chain'_cons'.mp r3).2⟩
      have h1 := hpair.1
      simp at h1
      exact hc'dot h1
    have slast : ∀ d ∈ (c' :: cs).getLast?, d ∉ str " .," := by
      intro d hd
      cases hcs : cs with
      | nil =>
        rw [hcs] at hd
        simp at hd
        subst hd
        exact hc'set
      | cons b bs =>
        rw [hcs, List.getLast?_cons_cons] at hd
        have hd2 : d ∈ (c :: b :: bs).getLast? := by
          rw [List.getLast?_cons_cons]
          exact hd
        rw [← hcs] at hd2
        exact of_decide_eq_false (r5 d hd2)
    cases hep : endsWithPunct (c' :: cs) with
    | true =>
      have hE : ensureTerminal (c' :: cs) = c' :: cs := by
        unfold ensureTerminal
        rw [if_neg]
        simp [hep]
      rw [hE]
      right
      refine ⟨s1, s2, s3, ?_, ?_, ?_⟩
      · intro d hd
        simp at hd
        subst hd
        exact hc'set
      · intro d hd
        simp at hd
        subst hd
        exact hc'canon
      · unfold endsWithPunct at hep
        cases hg : (c' :: cs).getLast? with
        | none => rw [hg] at hep; simp at hep
        | some d =>
          rw [hg] at hep
          simp only [Bool.or_eq_true, decide_eq_true_eq] at hep
          have hdset := slast d (by rw [hg]; rfl)
          have hddot : d ≠ '.' := fun h => hdset (by rw [h]; decide)
          rcases hep with (h | h) | h
          · exact absurd h hddot
          · exact Or.inl (by rw [hg, h])
          · exact Or.inr (Or.inl (by rw [hg, h]))
    | false =>
      have hE : ensureTerminal (c' :: cs) = (c' :: cs) ++ ['.'] := by
        unfold ensureTerminal
        rw [if_pos]
        exact ⟨by simp, hep⟩
      rw [hE]
      right
      have hlastne : ∀ d ∈ (c' :: cs).getLast?,
          d ≠ '.' ∧ d ≠ '!' ∧ d ≠ '?' := by
        intro d hd
        unfold endsWithPunct at hep
        cases hg : (c' :: cs).getLast? with
        | none => rw [hg] at hd; simp at hd
        | some e =>
          rw [hg] at hep hd
          simp at hd
          subst hd
          simp only [Bool.or_eq_false_iff, decide_eq_false_iff_not] at hep
          exact ⟨hep.1.1, hep.1.2, hep.2⟩
      refine ⟨?_, ?_, ?_, ?_, ?_, ?_⟩
      · intro d hd hdw
        rcases List.mem_append.mp hd with h | h
        · exact s1 d h hdw
        · simp at h
          subst h
          exact absurd hdw (by simp)
      · rw [List.chain'_append]
        refine ⟨s2, by simp, ?_⟩
        intro a _ y hy
        simp at hy
        subst hy
        intro hpair
        exact absurd hpair.2 (by decide)
      · rw [List.chain'_append]
        refine ⟨s3, by simp, ?_⟩
        intro a ha y hy
        simp at hy
        subst hy
        intro hpair
        have h1 := hpair.1
        simp at h1
        exact (hlastne a ha).1 h1
      · intro d hd
        simp only [List.cons_append, List.head?_cons, Option.mem_def,
          Option.some.injEq] at hd
        subst hd
        exact hc'set
      · intro d hd
        simp only [List.cons_append, List.head?_cons, Option.mem_def,
          Option.some.injEq] at hd
        subst hd
        exact hc'canon
      · right; right
        refine ⟨List.getLast?_concat _, ?_, ?_⟩
        · rw [List.dropLast_concat]
          simp
        · rw [List.dropLast_concat]
          intro d hd
          exact ⟨slast d hd, hlastne d hd⟩

/-- Every output of the cleaning pass has the clean shape. -/
theorem cleanShape_clean (t : List Char) :
    cleanShape (_clean_chunk_references t) := by
  simp only [_clean_chunk_references]
  exact cleanShape_tail _

end LLMService

/-- Counterexample to claim C5: the string
"In the document, stay calm." is a possible output of the cleaning pass
(it is produced from a doubled verbose prefix, because each anchored
prefix pattern is applied only once), yet cleaning it again strips the
remaining prefix and yields "Stay calm." — the pass is not idempotent on
its outputs. -/
theorem C5_cleaning_not_idempotent_counterexample :
    LLMService._clean_chunk_references
      (str "In the document, in the document, stay calm") =
      str "In the document, stay calm."
    ∧ LLMService._clean_chunk_references (str "In the document, stay calm.") ≠
      str "In the document, stay calm." := by
  constructor
  · decide
  · decide

/-- Claim C5 as amended: the cleaning pass is idempotent on every output
on which none of its removal patterns (verbose prefixes, chunk
references, bullet markers, section references) fires; it is not
idempotent on outputs that still start with a verbose prefix. -/
theorem C5_cleaning_idempotent_amended (t : List Char)
    (h : LLMService.artifactFree (LLMService._clean_chunk_references t) = true) :
    LLMService._clean_chunk_references
      (LLMService._clean_chunk_references t) =
      LLMService._clean_chunk_references t :=
  LLMService.clean_eq_self_of_shape _ (LLMService.cleanShape_clean t) h

/-- Witness for C5's amended theorem at a concrete input: cleaning
"stay calm" gives "Stay calm.", which cleans to itself. -/
theorem C5_cleaning_idempotent_amended_witness :
    LLMService._clean_chunk_references
      (LLMService._clean_chunk_references (str "stay calm")) =
      LLMService._clean_chunk_references (str "stay calm") :=
  C5_cleaning_idempotent_amended (str "stay calm") (by decide)

/-- Counterexample to claim C6: when the model output is "..." the
cleaning steps reduce it to the empty string and `generate_answer`
returns `ok ""` to the caller — no error is raised. -/
theorem C6_generate_answer_empty_counterexample :
    LLMService.generate_answer (.ok (str "...")) = .ok [] := by
  rfl

/-- Claim C6 as amended: `generate_answer` strips the raw model output
and applies the cleaning pass, returning the result — whatever it is — to
the caller; it raises exactly when the generation call itself raised, and
an answer emptied by cleaning is returned as the empty string. -/
theorem C6_generate_answer_amended (resp : Except (List Char) (List Char)) :
    (∀ raw, resp = .ok raw →
      LLMService.generate_answer resp =
        .ok (LLMService._clean_chunk_references (pyStrip raw)))
    ∧ (∀ e, resp = .error e →
        LLMService.generate_answer resp = .error e)
    ∧ LLMService.generate_answer (.ok (str "...")) = .ok [] := by
  refine ⟨?_, ?_, by rfl⟩
  · intro raw hr
    subst hr
    rfl
  · intro e he
    subst he
    rfl

/-- Witness for C6's amended theorem at a concrete input. -/
theorem C6_generate_answer_amended_witness :
    LLMService.generate_answer (.ok (str " hi ")) =
      .ok (LLMService._clean_chunk_references (pyStrip (str " hi "))) :=
  (C6_generate_answer_amended (.ok (str " hi "))).1 (str " hi ") rfl
